import Mathlib

set_option maxRecDepth 8000

/-! Shallow embedding of the two SQL command-line tools of this repository:
`scripts/util/filter_policies.py` (StatementFilter) and
`scripts/util/sql_add_on_conflict.py` (ConflictRewriter).

Strings are modelled as lists of characters.  The Python string
primitives used by the scripts (`rstrip`, `strip`, `upper`, `lower`,
`startswith`, `endswith`, `in`, string joining, file line iteration) are
modelled character by character, and the two scripts' main loops are
modelled as structural recursions carrying exactly the state the Python
loops carry (the line buffer, the `inside` flag). -/

/-- Python strings, modelled as lists of characters. -/
abbrev PyStr := List Char

/-- Python whitespace test (ASCII whitespace, as stripped by `str.rstrip()`
and `str.strip()`). -/
def pySpace (c : Char) : Bool :=
  c == ' ' || c == '\t' || c == '\n' || c == '\r' || c == '\x0b' || c == '\x0c'

/-- Python `s.rstrip()`: remove trailing whitespace. -/
def pyRstrip (s : PyStr) : PyStr := (s.reverse.dropWhile pySpace).reverse

/-- Python `s.lstrip()`: remove leading whitespace (the leading half of
`s.strip()`). -/
def pyLstrip (s : PyStr) : PyStr := s.dropWhile pySpace

/-- Python `s.strip()`: remove leading and trailing whitespace. -/
def pyStrip (s : PyStr) : PyStr := pyLstrip (pyRstrip s)

/-- Python `s.rstrip(";")`: remove all trailing semicolon characters. -/
def pyStripSemis (s : PyStr) : PyStr := (s.reverse.dropWhile (fun c => c == ';')).reverse

/-- Python `s.upper()` on the ASCII range. -/
def pyUpper (s : PyStr) : PyStr := s.map Char.toUpper

/-- Python `s.lower()` on the ASCII range. -/
def pyLower (s : PyStr) : PyStr := s.map Char.toLower

/-- Python `s.startswith(pat)`: the first argument is the string, the
second the pattern. -/
def strBeginsWith : PyStr → PyStr → Bool
  | _, [] => true
  | [], _ :: _ => false
  | c :: s, p :: ps => c == p && strBeginsWith s ps

/-- Python `pat in s` (substring containment; first argument the string,
second the pattern). -/
def containsSub : PyStr → PyStr → Bool
  | [], pat => strBeginsWith [] pat
  | c :: rest, pat => strBeginsWith (c :: rest) pat || containsSub rest pat

/-- Python `line.rstrip().endswith(";")`, the statement-terminator test
both scripts apply to a line (and, more generally, to any string). -/
def endsWithSemi (s : PyStr) : Bool :=
  match s.reverse.dropWhile pySpace with
  | [] => false
  | c :: _ => c == ';'

/-- Python `line.upper().startswith("INSERT INTO")`, the test that makes
`sql_add_on_conflict.py` enter its `inside` state. -/
def insertStartLine (line : PyStr) : Bool :=
  strBeginsWith (pyUpper line) ("INSERT INTO".data)

/-- Python text-file line iteration (`for line in f`): split after every
newline character, keeping the newline; a final piece without a newline is
still yielded; an empty file yields no lines. -/
def pySplitLines : PyStr → List PyStr
  | [] => []
  | c :: rest =>
    if c = '\n' then ['\n'] :: pySplitLines rest
    else
      match pySplitLines rest with
      | [] => [[c]]
      | l :: ls => (c :: l) :: ls

/-! ConflictRewriter (`scripts/util/sql_add_on_conflict.py`). -/

/-- Closing transformation of `sql_add_on_conflict.py` (lines 25-27 and
33-35): join the buffer, then `.rstrip().rstrip(";") + " ON CONFLICT DO NOTHING;\n"`. -/
def closeStmt (buffer : List PyStr) : PyStr :=
  pyStripSemis (pyRstrip buffer.flatten) ++ (" ON CONFLICT DO NOTHING;\n".data)

/-- Main loop of `sql_add_on_conflict.py` (lines 18-35), including the
end-of-input flush.  Arguments: remaining input lines, current `buffer`,
current `inside` flag.  Returns the list of chunks passed to
`f_out.write`, in order.  As in the Python code, closing a statement
leaves the stale buffer in place (it is only reset when the next
`INSERT INTO` line is seen, and it is never read while `inside` is
false). -/
def cwLoop : List PyStr → List PyStr → Bool → List PyStr
  | [], buffer, inside => if inside then [closeStmt buffer] else []
  | line :: rest, buffer, inside =>
    if !inside && insertStartLine line then
      cwLoop rest [line] true
    else if inside then
      if endsWithSemi line then
        closeStmt (buffer ++ [line]) :: cwLoop rest (buffer ++ [line]) false
      else
        cwLoop rest (buffer ++ [line]) true
    else
      line :: cwLoop rest buffer false

/-- The chunks `sql_add_on_conflict.py` writes for a given list of input
lines (initial state: empty buffer, `inside = False`). -/
def conflictChunks (lines : List PyStr) : List PyStr := cwLoop lines [] false

/-- Full ConflictRewriter text transformation: input file content to
output file content. -/
def conflictRun (src : PyStr) : PyStr := (conflictChunks (pySplitLines src)).flatten

/-! StatementFilter (`scripts/util/filter_policies.py`). -/

/-- Statement-splitting loop of `filter_policies.py` (lines 19-27):
accumulate lines in `statement`, and whenever a line's right-trimmed form
ends with `;`, append the joined buffer to the statement list and reset
the buffer; a non-empty leftover buffer is appended at end of input. -/
def splitLoop : List PyStr → List PyStr → List PyStr
  | [], buffer => if buffer = [] then [] else [buffer.flatten]
  | line :: rest, buffer =>
    if endsWithSemi line then
      (buffer ++ [line]).flatten :: splitLoop rest []
    else
      splitLoop rest (buffer ++ [line])

/-- The module-level `disallowed_schemas = {"storage"}` of
`filter_policies.py`. -/
def disallowedSchemas : List PyStr := ["storage".data]

/-- Function `keep_statement` of `filter_policies.py` (lines 29-31). -/
def keepStatement (stmt : PyStr) : Bool :=
  !(disallowedSchemas.any (fun schema =>
      containsSub (pyLower stmt) (schema ++ ['.']) ||
      containsSub (pyLower stmt) ('"' :: (schema ++ ['"']))))

/-- Output loop of `filter_policies.py` (lines 33-36): write
`stmt.strip() + "\n\n"` for every kept statement, in order.  Returns the
full text written to the destination file. -/
def writeLoop : List PyStr → PyStr
  | [] => []
  | stmt :: rest =>
    (if keepStatement stmt then pyStrip stmt ++ ('\n' :: ['\n']) else []) ++ writeLoop rest

/-- The ordered statement list `filter_policies.py` builds from a source
file's content. -/
def filterStatements (src : PyStr) : List PyStr := splitLoop (pySplitLines src) []

/-- Full StatementFilter text transformation: source file content to
destination file content. -/
def filterRun (src : PyStr) : PyStr := writeLoop (filterStatements src)

/-! Command-line entry behavior of both scripts. -/

/-- Observable outcome of one invocation of either script: the process
exit code, the diagnostic message printed on the error stream (if any),
and the output file written (path and content), `none` when no output
file is created or modified. -/
structure RunOutcome where
  exitCode : Nat
  message : Option PyStr
  outFile : Option (PyStr × PyStr)
deriving DecidableEq

/-- Usage message of `filter_policies.py`. -/
def filterUsage : PyStr := "Usage: filter_policies.py <source_sql> <destination_sql>".data

/-- Usage message of `sql_add_on_conflict.py`. -/
def conflictUsage : PyStr := "Usage: sql_add_on_conflict.py <input.sql> <output.sql>".data

/-- Entry behavior of `filter_policies.py` (lines 6-13 plus the main
body): `argv` is `sys.argv` (program name included), `fs` maps a path to
the content of the file at that path, or `none` when no such file exists.
A `SystemExit` with a string argument exits with code 1 and prints the
string to the error stream. -/
def filterToolRun (argv : List PyStr) (fs : PyStr → Option PyStr) : RunOutcome :=
  match argv with
  | [_, source, destination] =>
    match fs source with
    | none => ⟨1, some ("Source SQL file not found: ".data ++ source), none⟩
    | some content => ⟨0, none, some (destination, filterRun content)⟩
  | _ => ⟨1, some filterUsage, none⟩

/-- Entry behavior of `sql_add_on_conflict.py` (lines 8-10 and 36-38 plus
the main body): on a missing input file the first `open` raises
`FileNotFoundError` before the output file is opened, so no output file
is created. -/
def conflictToolRun (argv : List PyStr) (fs : PyStr → Option PyStr) : RunOutcome :=
  match argv with
  | [_, inputPath, outputPath] =>
    match fs inputPath with
    | none => ⟨1, some ("[ERROR] File not found: ".data ++ inputPath), none⟩
    | some content => ⟨0, none, some (outputPath, conflictRun content)⟩
  | _ => ⟨1, some conflictUsage, none⟩


/-! Helper lemmas about the ConflictRewriter loop. -/

/-- Entering the `inside` state on an `INSERT INTO` line: the terminator
test is not consulted for that line. -/
lemma cwLoop_insert (line : PyStr) (rest : List PyStr) (buffer : List PyStr)
    (h : insertStartLine line = true) :
    cwLoop (line :: rest) buffer false = cwLoop rest [line] true := by
  simp [cwLoop, h]

/-- From the `inside` state, if no remaining line terminates the
statement, the end-of-input flush writes the transformed leftover buffer. -/
lemma cwLoop_inside_flush (lines : List PyStr) :
    ∀ buffer, (∀ l ∈ lines, endsWithSemi l = false) →
      cwLoop lines buffer true = [closeStmt (buffer ++ lines)] := by
  induction lines with
  | nil => intro buffer _; simp [cwLoop]
  | cons l rest ih =>
    intro buffer h
    have hl : endsWithSemi l = false := h l (by simp)
    have hr : ∀ x ∈ rest, endsWithSemi x = false := fun x hx => h x (by simp [hx])
    simp [cwLoop, hl, ih (buffer ++ [l]) hr]

/-- From the `inside` state, a run of non-terminating lines followed by a
terminating line closes exactly one statement and returns to the outside
state. -/
lemma cwLoop_inside_run (mids : List PyStr) :
    ∀ buffer lend rest, (∀ l ∈ mids, endsWithSemi l = false) → endsWithSemi lend = true →
      cwLoop (mids ++ lend :: rest) buffer true
        = closeStmt ((buffer ++ mids) ++ [lend]) :: cwLoop rest ((buffer ++ mids) ++ [lend]) false := by
  induction mids with
  | nil => intro buffer lend rest _ hs; simp [cwLoop, hs]
  | cons m ms ih =>
    intro buffer lend rest h hs
    have hm : endsWithSemi m = false := h m (by simp)
    have hr : ∀ x ∈ ms, endsWithSemi x = false := fun x hx => h x (by simp [hx])
    simp [cwLoop, hm, ih (buffer ++ [m]) lend rest hr hs]

/-- Lines the ConflictRewriter loop processes in the `Outside` state
(the lines not belonging to any `INSERT INTO` statement), in input
order. -/
def outsideLines : List PyStr → Bool → List PyStr
  | [], _ => []
  | line :: rest, inside =>
    if !inside && insertStartLine line then outsideLines rest true
    else if inside then
      if endsWithSemi line then outsideLines rest false else outsideLines rest true
    else
      line :: outsideLines rest false

/-- The outside lines are written verbatim, in order, among the output
chunks, whatever the loop state. -/
lemma outsideLines_sublist (lines : List PyStr) :
    ∀ buffer inside, (outsideLines lines inside).Sublist (cwLoop lines buffer inside) := by
  induction lines with
  | nil => intro buffer inside; cases inside <;> simp [outsideLines, cwLoop]
  | cons l rest ih =>
    intro buffer inside
    cases inside with
    | false =>
      by_cases h : insertStartLine l = true
      · simpa [outsideLines, cwLoop, h] using ih [l] true
      · simp only [Bool.not_false, Bool.true_and] at *
        simpa [outsideLines, cwLoop, h] using (ih buffer false).cons₂ l
    | true =>
      by_cases h : endsWithSemi l = true
      · simpa [outsideLines, cwLoop, h] using (ih (buffer ++ [l]) false).cons _
      · simpa [outsideLines, cwLoop, h] using ih (buffer ++ [l]) true

/-- C2: ConflictRewriter reproduces every line that does not belong to
any `INSERT INTO` statement (every line its loop processes in the
`Outside` state) verbatim among the written output chunks, in the same
relative order as in the input. -/
theorem nonInsertLines_preserved (src : PyStr) :
    (outsideLines (pySplitLines src) false).Sublist (conflictChunks (pySplitLines src)) :=
  outsideLines_sublist (pySplitLines src) [] false

/-- C10: the terminating-semicolon check is never applied to the line
starting an `INSERT` statement: an `INSERT INTO` line always enters the
`Inside` state without closing the statement (even if it itself ends with
`;`), and the statement closes only at a later `;`-terminated line (or at
end of input), absorbing all lines in between. -/
theorem insertLine_skips_terminator_check :
    (∀ line rest buffer, insertStartLine line = true →
        cwLoop (line :: rest) buffer false = cwLoop rest [line] true)
    ∧ (∀ l0 mids lend rest buffer, insertStartLine l0 = true → endsWithSemi l0 = true →
        (∀ m ∈ mids, endsWithSemi m = false) → endsWithSemi lend = true →
        cwLoop (l0 :: (mids ++ lend :: rest)) buffer false
          = closeStmt ((l0 :: mids) ++ [lend]) :: cwLoop rest ((l0 :: mids) ++ [lend]) false) := by
  constructor
  · exact fun line rest buffer h => cwLoop_insert line rest buffer h
  · intro l0 mids lend rest buffer h0 _ hm hl
    rw [cwLoop_insert l0 _ buffer h0, cwLoop_inside_run mids [l0] lend rest hm hl]
    simp

/-- Witness for C10: a one-line `INSERT ...;` followed by an `UPDATE`
line; the `UPDATE` line is absorbed into the rewritten statement. -/
theorem insertLine_skips_terminator_check_witness :
    cwLoop ["INSERT INTO t VALUES (1);\n".data, "UPDATE t SET a=1;\n".data] [] false
      = ["INSERT INTO t VALUES (1);\nUPDATE t SET a=1 ON CONFLICT DO NOTHING;\n".data] := by
  have h := insertLine_skips_terminator_check.2 ("INSERT INTO t VALUES (1);\n".data) []
      ("UPDATE t SET a=1;\n".data) [] [] (by decide) (by decide) (by simp) (by decide)
  exact h.trans (by decide)

/-- C6: when end of input is reached in the `Inside` state (unterminated
`INSERT` statement), the same closing transformation (strip trailing
whitespace, strip trailing semicolons, append the suffix and a newline)
is applied to the leftover buffer and written. -/
theorem eof_inside_flush (lines : List PyStr) (buffer : List PyStr)
    (h : ∀ l ∈ lines, endsWithSemi l = false) :
    cwLoop lines buffer true = [closeStmt (buffer ++ lines)]
    ∧ closeStmt (buffer ++ lines)
        = pyStripSemis (pyRstrip (buffer ++ lines).flatten) ++ (" ON CONFLICT DO NOTHING;\n".data) :=
  ⟨cwLoop_inside_flush lines buffer h, rfl⟩

/-- Witness for C6: an `INSERT` statement with no terminating semicolon
is still rewritten at end of input. -/
theorem eof_inside_flush_witness :
    cwLoop [" (2)\n".data] ["INSERT INTO t (a) VALUES\n".data] true
      = ["INSERT INTO t (a) VALUES\n (2) ON CONFLICT DO NOTHING;\n".data] := by
  have h := eof_inside_flush [" (2)\n".data] ["INSERT INTO t (a) VALUES\n".data] (by decide)
  exact h.1.trans (by decide)

/-- Counterexample for C1: on a statement ending in `;;`, the output is
not the input with the final `;` replaced by ` ON CONFLICT DO NOTHING;`
(the code strips all trailing semicolons). -/
theorem conflict_rewrite_not_semicolon_swap :
    conflictRun ("INSERT INTO t VALUES (1);;\n".data)
        = "INSERT INTO t VALUES (1) ON CONFLICT DO NOTHING;\n".data
    ∧ conflictRun ("INSERT INTO t VALUES (1);;\n".data)
        ≠ "INSERT INTO t VALUES (1); ON CONFLICT DO NOTHING;\n".data :=
  ⟨by decide, by decide⟩

/-- C1 (amended): for every `INSERT INTO` statement (its starting line,
non-terminating middle lines, and either a `;`-terminated closing line or
end of input), the written output statement is the statement text with
trailing whitespace and all trailing semicolons stripped, followed by
` ON CONFLICT DO NOTHING;` and a newline. -/
theorem insert_statement_rewrite (l0 : PyStr) (mids : List PyStr) (tailOpt : Option PyStr)
    (rest : List PyStr) (buffer : List PyStr)
    (h0 : insertStartLine l0 = true)
    (hm : ∀ m ∈ mids, endsWithSemi m = false)
    (hsome : ∀ lend, tailOpt = some lend → endsWithSemi lend = true)
    (hnone : tailOpt = none → rest = []) :
    cwLoop ((l0 :: (mids ++ tailOpt.toList)) ++ rest) buffer false
      = closeStmt (l0 :: (mids ++ tailOpt.toList))
          :: cwLoop rest (l0 :: (mids ++ tailOpt.toList)) false
    ∧ closeStmt (l0 :: (mids ++ tailOpt.toList))
      = pyStripSemis (pyRstrip (l0 :: (mids ++ tailOpt.toList)).flatten)
          ++ (" ON CONFLICT DO NOTHING;\n".data) := by
  refine ⟨?_, rfl⟩
  cases tailOpt with
  | none =>
    have hrest : rest = [] := hnone rfl
    subst hrest
    simp only [Option.toList_none, List.append_nil]
    rw [cwLoop_insert l0 mids buffer h0, cwLoop_inside_flush mids [l0] hm]
    simp [cwLoop]
  | some lend =>
    have hl := hsome lend rfl
    simp only [Option.toList_some]
    have heq : (l0 :: (mids ++ [lend])) ++ rest = l0 :: (mids ++ lend :: rest) := by simp
    rw [heq, cwLoop_insert _ _ _ h0, cwLoop_inside_run mids [l0] lend rest hm hl]
    simp

/-- Witness for C1 (Scenario 3): a one-line `INSERT` statement closed at
end of input. -/
theorem insert_statement_rewrite_witness :
    cwLoop ["INSERT INTO t (a) VALUES (1);\n".data] [] false
      = ["INSERT INTO t (a) VALUES (1) ON CONFLICT DO NOTHING;\n".data] := by
  have h := insert_statement_rewrite ("INSERT INTO t (a) VALUES (1);\n".data) [] none [] []
      (by decide) (by simp) (fun lend hl => Option.noConfusion hl) (fun _ => rfl)
  exact h.1.trans (by decide)

/-- C8: invoking either tool with an argument count other than exactly
two paths (so `sys.argv` length other than three) terminates with the
usage message, a non-zero exit status, and no output file created or
modified. -/
theorem usage_error_behavior (argv : List PyStr) (fs fs2 : PyStr → Option PyStr)
    (h : argv.length ≠ 3) :
    (filterToolRun argv fs).exitCode ≠ 0 ∧ (filterToolRun argv fs).message = some filterUsage
    ∧ (filterToolRun argv fs).outFile = none
    ∧ (conflictToolRun argv fs2).exitCode ≠ 0
    ∧ (conflictToolRun argv fs2).message = some conflictUsage
    ∧ (conflictToolRun argv fs2).outFile = none := by
  match argv with
  | [] => simp [filterToolRun, conflictToolRun]
  | [a] => simp [filterToolRun, conflictToolRun]
  | [a, b] => simp [filterToolRun, conflictToolRun]
  | [a, b, c] => simp at h
  | a :: b :: c :: d :: rest => simp [filterToolRun, conflictToolRun]

/-- Witness for C8 (Scenario 5): one argument. -/
theorem usage_error_behavior_witness :
    (filterToolRun ["prog".data, "a.sql".data] (fun _ => none)).exitCode ≠ 0
    ∧ (filterToolRun ["prog".data, "a.sql".data] (fun _ => none)).message = some filterUsage
    ∧ (filterToolRun ["prog".data, "a.sql".data] (fun _ => none)).outFile = none
    ∧ (conflictToolRun ["prog".data, "a.sql".data] (fun _ => none)).exitCode ≠ 0
    ∧ (conflictToolRun ["prog".data, "a.sql".data] (fun _ => none)).message = some conflictUsage
    ∧ (conflictToolRun ["prog".data, "a.sql".data] (fun _ => none)).outFile = none :=
  usage_error_behavior ["prog".data, "a.sql".data] (fun _ => none) (fun _ => none) (by decide)

/-- C9: with two arguments and a missing input/source file, each tool
exits with code 1 and its not-found message, and performs no other
validation (the outcome is the same for every destination path and every
other file-system state). -/
theorem missing_input_behavior (prog source destination : PyStr) (fs fs2 : PyStr → Option PyStr)
    (h : fs source = none) (h2 : fs2 source = none) :
    filterToolRun [prog, source, destination] fs
        = ⟨1, some ("Source SQL file not found: ".data ++ source), none⟩
    ∧ conflictToolRun [prog, source, destination] fs2
        = ⟨1, some ("[ERROR] File not found: ".data ++ source), none⟩ := by
  constructor
  · simp [filterToolRun, h]
  · simp [conflictToolRun, h2]

/-- Witness for C9. -/
theorem missing_input_behavior_witness :
    filterToolRun ["prog".data, "missing.sql".data, "out.sql".data] (fun _ => none)
        = ⟨1, some ("Source SQL file not found: ".data ++ "missing.sql".data), none⟩
    ∧ conflictToolRun ["prog".data, "missing.sql".data, "out.sql".data] (fun _ => none)
        = ⟨1, some ("[ERROR] File not found: ".data ++ "missing.sql".data), none⟩ :=
  missing_input_behavior ("prog".data) ("missing.sql".data) ("out.sql".data)
    (fun _ => none) (fun _ => none) rfl rfl

/-! Helper lemmas about the StatementFilter splitting loop. -/

/-- A run of non-terminating lines followed by a `;`-terminated line
closes exactly one statement and resets the buffer. -/
lemma splitLoop_closed (mids : List PyStr) :
    ∀ buffer lend rest, (∀ l ∈ mids, endsWithSemi l = false) → endsWithSemi lend = true →
      splitLoop (mids ++ lend :: rest) buffer
        = ((buffer ++ mids) ++ [lend]).flatten :: splitLoop rest [] := by
  induction mids with
  | nil => intro buffer lend rest _ hs; simp [splitLoop, hs]
  | cons m ms ih =>
    intro buffer lend rest h hs
    have hm : endsWithSemi m = false := h m (by simp)
    simp [splitLoop, hm, ih (buffer ++ [m]) lend rest (fun x hx => h x (by simp [hx])) hs]

/-- A trailing run of non-terminating lines is flushed as one final
statement exactly when buffer plus run is non-empty. -/
lemma splitLoop_open (g : List PyStr) :
    ∀ buffer, (∀ l ∈ g, endsWithSemi l = false) →
      splitLoop g buffer = if buffer ++ g = [] then [] else [(buffer ++ g).flatten] := by
  induction g with
  | nil => intro buffer _; simp [splitLoop]
  | cons l rest ih =>
    intro buffer h
    have hl : endsWithSemi l = false := h l (by simp)
    have hr := ih (buffer ++ [l]) (fun x hx => h x (by simp [hx]))
    simp [splitLoop, hl, hr]

/-- Declarative statement splitting, phrased as the specification does:
the input lines are divided into groups; each group consists of lines
whose right-trimmed forms do not end with `;` followed by one line whose
right-trimmed form does; a trailing non-empty group with no terminating
line is still one (final) group. -/
inductive IsStmtSplit : List PyStr → List (List PyStr) → Prop where
  | nil : IsStmtSplit [] []
  | finalGroup (g : List PyStr) : g ≠ [] → (∀ l ∈ g, endsWithSemi l = false) →
      IsStmtSplit g [g]
  | step (mids : List PyStr) (lend : PyStr) (rest : List PyStr) (gs : List (List PyStr)) :
      (∀ l ∈ mids, endsWithSemi l = false) → endsWithSemi lend = true →
      IsStmtSplit rest gs → IsStmtSplit (mids ++ lend :: rest) ((mids ++ [lend]) :: gs)

/-- Every list of lines has a declarative split. -/
lemma isStmtSplit_exists (lines : List PyStr) : ∃ gs, IsStmtSplit lines gs := by
  induction lines with
  | nil => exact ⟨[], IsStmtSplit.nil⟩
  | cons l rest ih =>
    obtain ⟨gs, hgs⟩ := ih
    by_cases hl : endsWithSemi l = true
    · exact ⟨[l] :: gs, by simpa using IsStmtSplit.step [] l rest gs (by simp) hl hgs⟩
    · have hl' : endsWithSemi l = false := by simpa using hl
      cases hgs with
      | nil => exact ⟨[[l]], IsStmtSplit.finalGroup [l] (by simp) (by simp [hl'])⟩
      | finalGroup g hne hns =>
        refine ⟨[l :: rest], IsStmtSplit.finalGroup (l :: rest) (by simp) ?_⟩
        intro x hx
        rcases List.mem_cons.mp hx with rfl | hx
        · exact hl'
        · exact hns x hx
      | step mids lend rest2 gs2 hm hs hrec =>
        refine ⟨((l :: mids) ++ [lend]) :: gs2, ?_⟩
        have := IsStmtSplit.step (l :: mids) lend rest2 gs2 ?_ hs hrec
        · simpa using this
        · intro x hx
          rcases List.mem_cons.mp hx with rfl | hx
          · exact hl'
          · exact hm x hx

/-- The splitting loop computes exactly the joined groups of any
declarative split. -/
lemma isStmtSplit_sound (lines : List PyStr) (gs : List (List PyStr))
    (h : IsStmtSplit lines gs) : splitLoop lines [] = gs.map List.flatten := by
  induction h with
  | nil => simp [splitLoop]
  | finalGroup g hne hns => rw [splitLoop_open g [] hns]; simp [hne]
  | step mids lend rest gs hm hs _ ih => rw [splitLoop_closed mids [] lend rest hm hs, ih]; simp

/-- C3: StatementFilter splits its source into statements by closing a
statement exactly at each line whose right-trimmed form ends with `;`,
and emits a non-empty leftover buffer as one final statement: a
declarative split of the lines always exists, and the splitting loop
returns precisely the joined groups of any such split. -/
theorem statement_splitting (lines : List PyStr) :
    (∃ gs, IsStmtSplit lines gs)
    ∧ ∀ gs, IsStmtSplit lines gs → splitLoop lines [] = gs.map List.flatten :=
  ⟨isStmtSplit_exists lines, fun gs h => isStmtSplit_sound lines gs h⟩

/-- Witness for C3: a `;`-terminated statement followed by an
unterminated trailing statement. -/
theorem statement_splitting_witness :
    splitLoop ["a;\n".data, "b\n".data] [] = [["a;\n".data], ["b\n".data]].map List.flatten :=
  (statement_splitting ["a;\n".data, "b\n".data]).2 [["a;\n".data], ["b\n".data]]
    (IsStmtSplit.step [] ("a;\n".data) [("b\n".data)] [[("b\n".data)]] (by simp) (by decide)
      (IsStmtSplit.finalGroup [("b\n".data)] (by simp) (by decide)))

/-- C4: a statement is dropped exactly when its lower-cased text contains
`storage.` or `"storage"` (the only disallowed schema), and consequently
such a statement never survives the filter of any source. -/
theorem storage_filtering (stmt : PyStr) :
    (keepStatement stmt = false ↔
      (containsSub (pyLower stmt) ("storage.".data) = true
        ∨ containsSub (pyLower stmt) ("\"storage\"".data) = true))
    ∧ ∀ src, (containsSub (pyLower stmt) ("storage.".data) = true
        ∨ containsSub (pyLower stmt) ("\"storage\"".data) = true) →
      stmt ∉ (filterStatements src).filter keepStatement := by
  have hdot : ("storage".data ++ ['.']) = "storage.".data := rfl
  have hq : ('"' :: ("storage".data ++ ['"'])) = "\"storage\"".data := rfl
  have hiff : keepStatement stmt = false ↔
      (containsSub (pyLower stmt) ("storage.".data) = true
        ∨ containsSub (pyLower stmt) ("\"storage\"".data) = true) := by
    cases hA : containsSub (pyLower stmt) ("storage.".data) <;>
      cases hB : containsSub (pyLower stmt) ("\"storage\"".data) <;>
        simp [keepStatement, disallowedSchemas, hdot, hq, hA, hB]
  refine ⟨hiff, fun src hcont hmem => ?_⟩
  have hkeep : keepStatement stmt = true := (List.mem_filter.mp hmem).2
  have hfalse : keepStatement stmt = false := hiff.mpr hcont
  rw [hkeep] at hfalse
  exact Bool.noConfusion hfalse

/-- Witness for C4 (Scenario 2): a statement referencing `storage.` is
absent from the filter's output. -/
theorem storage_filtering_witness :
    ("INSERT INTO storage.t VALUES (1);\n".data) ∉
      (filterStatements ("INSERT INTO storage.t VALUES (1);\n".data)).filter keepStatement :=
  (storage_filtering ("INSERT INTO storage.t VALUES (1);\n".data)).2
    ("INSERT INTO storage.t VALUES (1);\n".data) (Or.inl (by decide))

/-- Helper for C5 and C7: the output loop equals a filter-map-join of the
statement list. -/
lemma writeLoop_eq (stmts : List PyStr) :
    writeLoop stmts
      = ((stmts.filter keepStatement).map (fun s => pyStrip s ++ ('\n' :: ['\n']))).flatten := by
  induction stmts with
  | nil => simp [writeLoop]
  | cons s rest ih =>
    by_cases h : keepStatement s = true
    · simp [writeLoop, h, ih]
    · have h' : keepStatement s = false := by simpa using h
      simp [writeLoop, h', ih]

/-- C5: StatementFilter writes the kept statements in their original
order, each trimmed of surrounding whitespace and followed by exactly one
blank line; on `SELECT 1;\n` the output is `SELECT 1;\n\n`. -/
theorem kept_statement_output :
    (∀ stmts : List PyStr,
      writeLoop stmts
        = ((stmts.filter keepStatement).map (fun s => pyStrip s ++ ('\n' :: ['\n']))).flatten)
    ∧ filterRun ("SELECT 1;\n".data) = "SELECT 1;\n\n".data :=
  ⟨writeLoop_eq, by decide⟩

/-! Whitespace-stripping algebra (helpers for the idempotence claim C7). -/

/-- Dropping a prefix by a predicate is idempotent. -/
lemma dropWhile_self_idem {α : Type} (p : α → Bool) (l : List α) :
    (l.dropWhile p).dropWhile p = l.dropWhile p := by
  cases h : l.dropWhile p with
  | nil => rfl
  | cons c rest =>
    have hc : p c = false := by
      have hh := List.head?_dropWhile_not p l
      rw [h] at hh
      exact hh
    simp [List.dropWhile_cons, hc]

lemma pyRstrip_append (a b : PyStr) :
    pyRstrip (a ++ b) = if pyRstrip b = [] then pyRstrip a else a ++ pyRstrip b := by
  unfold pyRstrip
  rw [List.reverse_append, List.dropWhile_append]
  by_cases h : b.reverse.dropWhile pySpace = []
  · simp [h]
  · have h1 : (b.reverse.dropWhile pySpace).isEmpty = false := by
      simpa [List.isEmpty_iff] using h
    have h2 : (b.reverse.dropWhile pySpace).reverse ≠ [] := by simpa using h
    rw [h1, if_neg h2]
    simp

lemma pyRstrip_eq_nil_iff {s : PyStr} : pyRstrip s = [] ↔ ∀ c ∈ s, pySpace c = true := by
  simp [pyRstrip, List.dropWhile_eq_nil_iff]

lemma pyRstrip_idem (s : PyStr) : pyRstrip (pyRstrip s) = pyRstrip s := by
  unfold pyRstrip
  rw [List.reverse_reverse, dropWhile_self_idem]

lemma pyLstrip_append (a b : PyStr) :
    pyLstrip (a ++ b) = if pyLstrip a = [] then pyLstrip b else pyLstrip a ++ b := by
  unfold pyLstrip
  rw [List.dropWhile_append]
  by_cases h : a.dropWhile pySpace = [] <;> simp [h]

lemma pyLstrip_eq_nil_iff {s : PyStr} : pyLstrip s = [] ↔ ∀ c ∈ s, pySpace c = true := by
  simp [pyLstrip, List.dropWhile_eq_nil_iff]

lemma pyLstrip_idem (s : PyStr) : pyLstrip (pyLstrip s) = pyLstrip s :=
  dropWhile_self_idem pySpace s

/-- The last character surviving `rstrip` is not whitespace. -/
lemma pyRstrip_getLast_not_space (s : PyStr) (c : Char)
    (hc : (pyRstrip s).getLast? = some c) : pySpace c = false := by
  have h1 : (s.reverse.dropWhile pySpace).head? = some c := by
    have h0 : (pyRstrip s).reverse.head? = some c := by
      rw [List.head?_reverse]
      exact hc
    simpa [pyRstrip] using h0
  have hh := List.head?_dropWhile_not pySpace s.reverse
  rw [h1] at hh
  exact hh

lemma pyRstrip_eq_self_of_getLast (s : PyStr) (c : Char) (hc : s.getLast? = some c)
    (h : pySpace c = false) : pyRstrip s = s := by
  obtain ⟨a, rfl⟩ := List.getLast?_eq_some_iff.mp hc
  rw [pyRstrip_append]
  have h1 : pyRstrip [c] = [c] := by
    simp [pyRstrip, List.dropWhile_cons, h]
  rw [h1]
  simp

lemma pyLstrip_eq_self_of_head (s : PyStr) (c : Char) (hc : s.head? = some c)
    (h : pySpace c = false) : pyLstrip s = s := by
  cases s with
  | nil => cases hc
  | cons x rest =>
    have hx : x = c := by simpa using hc
    subst hx
    simp [pyLstrip, List.dropWhile_cons, h]

/-- A non-empty suffix has the same last element as the whole list. -/
lemma getLast?_of_suffix {α : Type} {l₁ l₂ : List α} (h : l₁ <:+ l₂) (hne : l₁ ≠ []) :
    l₂.getLast? = l₁.getLast? := by
  obtain ⟨pre, rfl⟩ := h
  rw [List.getLast?_append]
  cases hl : l₁.getLast? with
  | none => exact absurd (by simpa using hl) hne
  | some c => simp

lemma pyStrip_idem (s : PyStr) : pyStrip (pyStrip s) = pyStrip s := by
  show pyLstrip (pyRstrip (pyStrip s)) = pyStrip s
  have h1 : pyRstrip (pyStrip s) = pyStrip s := by
    cases hl : (pyStrip s).getLast? with
    | none =>
      have h0 : pyStrip s = [] := by simpa using hl
      rw [h0]; rfl
    | some c =>
      apply pyRstrip_eq_self_of_getLast _ c hl
      have hsuf : pyStrip s <:+ pyRstrip s := List.dropWhile_suffix pySpace
      have hne : pyStrip s ≠ [] := by intro h0; rw [h0] at hl; cases hl
      exact pyRstrip_getLast_not_space s c ((getLast?_of_suffix hsuf hne).trans hl)
  rw [h1]
  exact pyLstrip_idem (pyRstrip s)

lemma pyStrip_append_ws_right (s w : PyStr) (hw : ∀ c ∈ w, pySpace c = true) :
    pyStrip (s ++ w) = pyStrip s := by
  unfold pyStrip
  rw [pyRstrip_append, if_pos (pyRstrip_eq_nil_iff.mpr hw)]

lemma pyStrip_append_ws_left (w s : PyStr) (hw : ∀ c ∈ w, pySpace c = true) :
    pyStrip (w ++ s) = pyStrip s := by
  unfold pyStrip
  rw [pyRstrip_append]
  by_cases h : pyRstrip s = []
  · rw [if_pos h, h, pyRstrip_eq_nil_iff.mpr hw]
  · rw [if_neg h, pyLstrip_append, if_pos (pyLstrip_eq_nil_iff.mpr hw)]

/-! Characterizations of the statement-terminator test. -/

lemma endsWithSemi_iff {s : PyStr} : endsWithSemi s = true ↔ (pyRstrip s).getLast? = some ';' := by
  unfold endsWithSemi
  have hrw : (pyRstrip s).getLast? = (s.reverse.dropWhile pySpace).head? := by
    unfold pyRstrip
    rw [List.getLast?_reverse]
  rw [hrw]
  cases h : s.reverse.dropWhile pySpace with
  | nil => simp
  | cons c rest => simp

lemma endsWithSemi_congr {s t : PyStr} (h : pyRstrip s = pyRstrip t) :
    endsWithSemi s = endsWithSemi t := by
  unfold endsWithSemi
  have h2 : s.reverse.dropWhile pySpace = t.reverse.dropWhile pySpace := by
    have := congrArg List.reverse h
    simpa [pyRstrip] using this
  rw [h2]

lemma endsWithSemi_pyRstrip (s : PyStr) : endsWithSemi (pyRstrip s) = endsWithSemi s :=
  endsWithSemi_congr (pyRstrip_idem s)

lemma endsWithSemi_append_ws (s w : PyStr) (hw : ∀ c ∈ w, pySpace c = true) :
    endsWithSemi (s ++ w) = endsWithSemi s :=
  endsWithSemi_congr (by rw [pyRstrip_append, if_pos (pyRstrip_eq_nil_iff.mpr hw)])

lemma endsWithSemi_append_nl (s : PyStr) : endsWithSemi (s ++ ['\n']) = endsWithSemi s :=
  endsWithSemi_append_ws s ['\n'] (by simp [pySpace])

lemma endsWithSemi_of_getLast (s : PyStr) (h : s.getLast? = some ';') :
    endsWithSemi s = true := by
  rw [endsWithSemi_iff, pyRstrip_eq_self_of_getLast s ';' h (by decide)]
  exact h

/-- If the left-stripped string still ends with a semicolon, so did the
original. -/
lemma endsWithSemi_of_pyLstrip (s : PyStr) (h : endsWithSemi (pyLstrip s) = true) :
    endsWithSemi s = true := by
  rw [endsWithSemi_iff] at h ⊢
  have hs : s.takeWhile pySpace ++ pyLstrip s = s := List.takeWhile_append_dropWhile pySpace s
  have hne : pyRstrip (pyLstrip s) ≠ [] := by intro h0; rw [h0] at h; cases h
  calc (pyRstrip s).getLast?
      = (pyRstrip (s.takeWhile pySpace ++ pyLstrip s)).getLast? := by rw [hs]
    _ = some ';' := by
        rw [pyRstrip_append, if_neg hne, List.getLast?_append, h]
        rfl

/-- The stripped form of a `;`-terminated statement ends with `;`
literally. -/
lemma pyStrip_getLast_semi (s : PyStr) (h : endsWithSemi s = true) :
    (pyStrip s).getLast? = some ';' := by
  rw [endsWithSemi_iff] at h
  obtain ⟨a, ha⟩ := List.getLast?_eq_some_iff.mp h
  show (pyLstrip (pyRstrip s)).getLast? = some ';'
  rw [ha, pyLstrip_append]
  by_cases h0 : pyLstrip a = []
  · rw [if_pos h0]
    rfl
  · rw [if_neg h0, List.getLast?_concat]

/-! Structure of Python line iteration (helpers for C7). -/

lemma pySplitLines_ne_nil (s : PyStr) (h : s ≠ []) : pySplitLines s ≠ [] := by
  cases s with
  | nil => exact absurd rfl h
  | cons c rest =>
    by_cases hc : c = '\n'
    · simp [pySplitLines, hc]
    · simp only [pySplitLines, if_neg hc]
      cases h2 : pySplitLines rest <;> simp

lemma pySplitLines_flatten (s : PyStr) : (pySplitLines s).flatten = s := by
  induction s with
  | nil => rfl
  | cons c rest ih =>
    by_cases hc : c = '\n'
    · subst hc
      simp [pySplitLines, ih]
    · simp only [pySplitLines, if_neg hc]
      cases h2 : pySplitLines rest with
      | nil =>
        have h0 : rest = [] := by rw [← ih, h2]; rfl
        simp [h0]
      | cons l ls =>
        rw [← ih, h2]
        simp

lemma pySplitLines_append (ys b : PyStr) :
    pySplitLines ((ys ++ ['\n']) ++ b) = pySplitLines (ys ++ ['\n']) ++ pySplitLines b := by
  induction ys with
  | nil => simp [pySplitLines]
  | cons c rest ih =>
    have ih' := ih
    simp only [List.append_assoc, List.singleton_append] at ih'
    by_cases hc : c = '\n'
    · subst hc
      simp [pySplitLines, ih']
    · have hne : pySplitLines (rest ++ ['\n']) ≠ [] := pySplitLines_ne_nil _ (by simp)
      obtain ⟨l, ls, h2⟩ : ∃ l ls, pySplitLines (rest ++ ['\n']) = l :: ls := by
        cases h0 : pySplitLines (rest ++ ['\n']) with
        | nil => exact absurd h0 hne
        | cons l ls => exact ⟨l, ls, rfl⟩
      simp only [List.cons_append, pySplitLines, if_neg hc, List.append_eq, List.append_assoc,
        List.singleton_append, List.nil_append]
      rw [ih', h2]
      simp

/-- Shape of the line list of any text: newline-free bodies each closed
by a newline, followed by at most one newline-free unterminated tail. -/
lemma pySplitLines_shape (s : PyStr) :
    ∃ (BS : List PyStr) (tail : PyStr), (∀ b ∈ BS, '\n' ∉ b) ∧ '\n' ∉ tail ∧
      pySplitLines s = BS.map (fun b => b ++ ['\n']) ++ (if tail = [] then [] else [tail]) ∧
      s = (BS.map (fun b => b ++ ['\n'])).flatten ++ tail := by
  induction s with
  | nil => exact ⟨[], [], by simp, by simp, by simp [pySplitLines], by simp⟩
  | cons c rest ih =>
    obtain ⟨BS, tail, h1, h2, h3, h4⟩ := ih
    by_cases hc : c = '\n'
    · subst hc
      refine ⟨[] :: BS, tail, ?_, h2, ?_, ?_⟩
      · intro b hb
        rcases List.mem_cons.mp hb with rfl | hb
        · simp
        · exact h1 b hb
      · simp [pySplitLines, h3]
      · simp [h4]
    · cases h5 : pySplitLines rest with
      | nil =>
        have h0 : rest = [] := by rw [← pySplitLines_flatten rest, h5]; rfl
        refine ⟨[], [c], by simp, ?_, ?_, ?_⟩
        · simp only [List.mem_singleton]
          exact fun h => hc h.symm
        · simp [pySplitLines, if_neg hc, h5]
        · simp [h0]
      | cons l ls =>
        rw [h5] at h3
        cases BS with
        | nil =>
          simp only [List.map_nil, List.nil_append] at h3
          by_cases ht : tail = []
          · rw [if_pos ht] at h3
            cases h3
          · rw [if_neg ht] at h3
            injection h3 with hl hls
            refine ⟨[], c :: tail, by simp, ?_, ?_, ?_⟩
            · simp only [List.mem_cons, not_or]
              exact ⟨fun h => hc h.symm, h2⟩
            · simp [pySplitLines, if_neg hc, h5, hl, hls]
            · simp only [List.map_nil, List.flatten_nil, List.nil_append] at h4
              simp [h4]
        | cons b BS2 =>
          simp only [List.map_cons, List.cons_append] at h3
          injection h3 with hl hls
          refine ⟨(c :: b) :: BS2, tail, ?_, h2, ?_, ?_⟩
          · intro x hx
            rcases List.mem_cons.mp hx with rfl | hx
            · simp only [List.mem_cons, not_or]
              exact ⟨fun h => hc h.symm, h1 b (by simp)⟩
            · exact h1 x (by simp [hx])
          · simp [pySplitLines, if_neg hc, h5, hl, hls]
          · simp only [List.map_cons, List.flatten_cons, List.cons_append, List.append_assoc] at h4 ⊢
            simp [h4]

/-- Any line that is followed by a further line is a newline-terminated
newline-free body. -/
lemma line_before_end_form (s : PyStr) (pre post : List PyStr) (m : PyStr)
    (hdec : pySplitLines s = pre ++ m :: post) (hpost : post ≠ []) :
    ∃ b, '\n' ∉ b ∧ m = b ++ ['\n'] := by
  obtain ⟨BS, tail, h1, _, h3, h4⟩ := pySplitLines_shape s
  rw [hdec] at h3
  clear hdec h4
  induction BS generalizing pre with
  | nil =>
    simp only [List.map_nil, List.nil_append] at h3
    by_cases ht : tail = []
    · rw [if_pos ht] at h3
      cases pre <;> simp at h3
    · rw [if_neg ht] at h3
      cases pre with
      | nil =>
        injection h3 with _ h3b
        exact absurd h3b hpost
      | cons x pre2 =>
        injection h3 with _ h3b
        exact absurd h3b (by simp)
  | cons b BS2 ih =>
    simp only [List.map_cons, List.cons_append] at h3
    cases pre with
    | nil =>
      simp only [List.nil_append] at h3
      injection h3 with hm _
      exact ⟨b, h1 b (by simp), hm⟩
    | cons x pre2 =>
      simp only [List.cons_append] at h3
      injection h3 with _ h3'
      exact ih pre2 (fun y hy => h1 y (by simp [hy])) h3'

/-! Newline-separated segments of a string (helpers for C7).  `nlSegs`
splits a string at every newline (the segments carry no newline);
`joinNl` is its inverse. -/

def nlSegs : PyStr → List PyStr
  | [] => [[]]
  | c :: rest =>
    if c = '\n' then [] :: nlSegs rest
    else
      match nlSegs rest with
      | [] => [[c]]
      | s :: ss => (c :: s) :: ss

def joinNl : List PyStr → PyStr
  | [] => []
  | [s] => s
  | s :: s2 :: ss => s ++ '\n' :: joinNl (s2 :: ss)

lemma joinNl_cons_cons (s s2 : PyStr) (ss : List PyStr) :
    joinNl (s :: s2 :: ss) = s ++ '\n' :: joinNl (s2 :: ss) := rfl

lemma joinNl_cons_ne_nil (s : PyStr) (BS : List PyStr) (h : BS ≠ []) :
    joinNl (s :: BS) = s ++ '\n' :: joinNl BS := by
  cases BS with
  | nil => exact absurd rfl h
  | cons s2 ss => rfl

lemma nlSegs_ne_nil (t : PyStr) : nlSegs t ≠ [] := by
  cases t with
  | nil => simp [nlSegs]
  | cons c rest =>
    by_cases hc : c = '\n'
    · simp [nlSegs, hc]
    · simp only [nlSegs, if_neg hc]
      cases nlSegs rest <;> simp

lemma mem_nlSegs_no_nl (t : PyStr) : ∀ b ∈ nlSegs t, '\n' ∉ b := by
  induction t with
  | nil =>
    intro b hb
    simp only [nlSegs, List.mem_singleton] at hb
    simp [hb]
  | cons c rest ih =>
    intro b hb
    by_cases hc : c = '\n'
    · rw [show nlSegs (c :: rest) = [] :: nlSegs rest by simp [nlSegs, hc]] at hb
      rcases List.mem_cons.mp hb with rfl | hb
      · simp
      · exact ih b hb
    · obtain ⟨s, ss, hss⟩ : ∃ s ss, nlSegs rest = s :: ss := by
        cases h0 : nlSegs rest with
        | nil => exact absurd h0 (nlSegs_ne_nil rest)
        | cons s ss => exact ⟨s, ss, rfl⟩
      rw [show nlSegs (c :: rest) = (c :: s) :: ss by simp [nlSegs, if_neg hc, hss]] at hb
      rcases List.mem_cons.mp hb with rfl | hb
      · simp only [List.mem_cons, not_or]
        exact ⟨fun h => hc h.symm, ih s (by simp [hss])⟩
      · exact ih b (by simp [hss, hb])

lemma joinNl_nlSegs (t : PyStr) : joinNl (nlSegs t) = t := by
  induction t with
  | nil => rfl
  | cons c rest ih =>
    obtain ⟨s, ss, hss⟩ : ∃ s ss, nlSegs rest = s :: ss := by
      cases h0 : nlSegs rest with
      | nil => exact absurd h0 (nlSegs_ne_nil rest)
      | cons s ss => exact ⟨s, ss, rfl⟩
    by_cases hc : c = '\n'
    · subst hc
      rw [show nlSegs ('\n' :: rest) = [] :: nlSegs rest by simp [nlSegs], hss,
        joinNl_cons_cons]
      rw [hss] at ih
      simp [ih]
    · rw [show nlSegs (c :: rest) = (c :: s) :: ss by simp [nlSegs, if_neg hc, hss]]
      rw [hss] at ih
      cases ss with
      | nil => simpa [joinNl] using congrArg (fun x => c :: x) ih
      | cons y ys =>
        rw [joinNl_cons_cons] at ih ⊢
        simp [← ih]

lemma nlSegs_no_nl (b : PyStr) (h : '\n' ∉ b) : nlSegs b = [b] := by
  induction b with
  | nil => rfl
  | cons c rest ih =>
    have hc : ¬ c = '\n' := fun h0 => h (by simp [h0])
    have hr : nlSegs rest = [rest] := ih (fun h0 => h (by simp [h0]))
    simp [nlSegs, if_neg hc, hr]

lemma nlSegs_body_cons (b rest : PyStr) (h : '\n' ∉ b) :
    nlSegs (b ++ '\n' :: rest) = b :: nlSegs rest := by
  induction b with
  | nil => simp [nlSegs]
  | cons c b2 ih =>
    have hc : ¬ c = '\n' := fun h0 => h (by simp [h0])
    have hr := ih (fun h0 => h (by simp [h0]))
    obtain ⟨s, ss, hss⟩ : ∃ s ss, nlSegs (b2 ++ '\n' :: rest) = s :: ss := by
      cases h0 : nlSegs (b2 ++ '\n' :: rest) with
      | nil => exact absurd h0 (nlSegs_ne_nil _)
      | cons s ss => exact ⟨s, ss, rfl⟩
    rw [hss] at hr
    injection hr with hr1 hr2
    simp only [List.cons_append, nlSegs, if_neg hc, List.append_eq]
    rw [hss, hr1, hr2]

lemma nlSegs_joinNl (BS : List PyStr) (hne : BS ≠ []) (h : ∀ b ∈ BS, '\n' ∉ b) :
    nlSegs (joinNl BS) = BS := by
  induction BS with
  | nil => exact absurd rfl hne
  | cons b bs ih =>
    cases bs with
    | nil => simpa [joinNl] using nlSegs_no_nl b (h b (by simp))
    | cons b2 bs2 =>
      rw [joinNl_cons_cons, nlSegs_body_cons b _ (h b (by simp)),
        ih (by simp) (fun x hx => h x (by simp [hx]))]

lemma joinNl_eq_nil_iff (BS : List PyStr) : joinNl BS = [] ↔ BS = [] ∨ BS = [[]] := by
  cases BS with
  | nil => simp [joinNl]
  | cons b bs =>
    cases bs with
    | nil => simp [joinNl]
    | cons b2 bs2 =>
      rw [joinNl_cons_cons]
      constructor
      · intro h
        exact absurd h (by simp)
      · intro h
        rcases h with h | h <;> cases h

/-- Flattening newline-closed segment lines recovers the joined text plus
its final newline. -/
lemma flatten_seg_lines (BS : List PyStr) (hne : BS ≠ []) :
    (BS.map (fun b => b ++ ['\n'])).flatten = joinNl BS ++ ['\n'] := by
  induction BS with
  | nil => exact absurd rfl hne
  | cons b bs ih =>
    cases bs with
    | nil => simp [joinNl]
    | cons b2 bs2 =>
      rw [joinNl_cons_cons]
      simp only [List.map_cons, List.flatten_cons] at ih ⊢
      rw [ih (by simp)]
      simp

/-- The line of a single newline-free body closed by a newline. -/
lemma pySplitLines_body (b : PyStr) (h : '\n' ∉ b) :
    pySplitLines (b ++ ['\n']) = [b ++ ['\n']] := by
  induction b with
  | nil => simp [pySplitLines]
  | cons c b2 ih =>
    have hc : ¬ c = '\n' := fun h0 => h (by simp [h0])
    have hr := ih (fun h0 => h (by simp [h0]))
    simp [pySplitLines, if_neg hc, hr]

/-- The line list of a segment-joined text followed by a newline. -/
lemma pySplitLines_joinNl (BS : List PyStr) (hne : BS ≠ []) (h : ∀ b ∈ BS, '\n' ∉ b) :
    pySplitLines (joinNl BS ++ ['\n']) = BS.map (fun b => b ++ ['\n']) := by
  induction BS with
  | nil => exact absurd rfl hne
  | cons b bs ih =>
    cases bs with
    | nil =>
      show pySplitLines (joinNl [b] ++ ['\n']) = [b].map (fun b => b ++ ['\n'])
      rw [show joinNl [b] = b from rfl]
      simpa using pySplitLines_body b (h b (by simp))
    | cons b2 bs2 =>
      rw [joinNl_cons_cons]
      have hb : '\n' ∉ b := h b (by simp)
      have hsplit : (b ++ '\n' :: joinNl (b2 :: bs2)) ++ ['\n']
          = (b ++ ['\n']) ++ (joinNl (b2 :: bs2) ++ ['\n']) := by simp
      rw [hsplit, pySplitLines_append, pySplitLines_body b hb,
        ih (by simp) (fun x hx => h x (by simp [hx]))]
      simp

/-! Effect of whitespace stripping on segment lists (helpers for C7). -/

/-- Trailing-whitespace removal on a segment list: drop all-blank
trailing segments, right-strip the last remaining one. -/
def rstripSegs : List PyStr → List PyStr
  | [] => []
  | b :: bs =>
    match rstripSegs bs with
    | [] => if pyRstrip b = [] then [] else [pyRstrip b]
    | c :: cs => b :: c :: cs

/-- Leading-whitespace removal on a segment list: drop all-blank leading
segments, left-strip the first remaining one. -/
def lstripSegs : List PyStr → List PyStr
  | [] => []
  | b :: bs => if pyLstrip b = [] then lstripSegs bs else pyLstrip b :: bs

lemma rstripSegs_cons_of_nil (b : PyStr) (bs : List PyStr) (h : rstripSegs bs = []) :
    rstripSegs (b :: bs) = if pyRstrip b = [] then [] else [pyRstrip b] := by
  simp [rstripSegs, h]

lemma rstripSegs_cons_of_cons (b : PyStr) (bs : List PyStr) (c : PyStr) (cs : List PyStr)
    (h : rstripSegs bs = c :: cs) : rstripSegs (b :: bs) = b :: c :: cs := by
  simp [rstripSegs, h]

lemma rstripSegs_joinNl (BS : List PyStr) :
    joinNl (rstripSegs BS) = pyRstrip (joinNl BS)
    ∧ (rstripSegs BS = [] ↔ pyRstrip (joinNl BS) = []) := by
  induction BS with
  | nil =>
    refine ⟨rfl, ?_⟩
    show ([] : List PyStr) = [] ↔ pyRstrip [] = []
    simp [pyRstrip]
  | cons b bs ih =>
    obtain ⟨ih1, ih2⟩ := ih
    cases h : rstripSegs bs with
    | nil =>
      have hbs : pyRstrip (joinNl bs) = [] := ih2.mp h
      have hval : pyRstrip (joinNl (b :: bs)) = pyRstrip b := by
        cases bs with
        | nil => rfl
        | cons x xs =>
          rw [joinNl_cons_cons,
            show b ++ '\n' :: joinNl (x :: xs) = (b ++ ['\n']) ++ joinNl (x :: xs) by simp,
            pyRstrip_append, if_pos hbs, pyRstrip_append]
          have : pyRstrip ['\n'] = [] := by decide
          rw [this]
          simp
      rw [rstripSegs_cons_of_nil b bs h, hval]
      by_cases hb : pyRstrip b = []
      · rw [if_pos hb]
        exact ⟨hb.symm, by simp [hb]⟩
      · rw [if_neg hb]
        exact ⟨rfl, by simp [hb]⟩
    | cons c cs =>
      have hbsne : pyRstrip (joinNl bs) ≠ [] := by
        intro h0
        rw [ih2.mpr h0] at h
        cases h
      obtain ⟨x, xs, rfl⟩ : ∃ x xs, bs = x :: xs := by
        cases bs with
        | nil => exact absurd (ih2.mp rfl).symm (fun h0 => hbsne h0.symm)
        | cons x xs => exact ⟨x, xs, rfl⟩
      rw [rstripSegs_cons_of_cons b _ c cs h]
      have hval : pyRstrip (joinNl (b :: x :: xs)) = b ++ '\n' :: pyRstrip (joinNl (x :: xs)) := by
        rw [joinNl_cons_cons,
          show b ++ '\n' :: joinNl (x :: xs) = (b ++ ['\n']) ++ joinNl (x :: xs) by simp,
          pyRstrip_append, if_neg hbsne]
        simp
      constructor
      · rw [joinNl_cons_cons, hval, ← ih1, h]
      · rw [hval]
        simp

lemma lstripSegs_joinNl (BS : List PyStr) :
    joinNl (lstripSegs BS) = pyLstrip (joinNl BS) := by
  induction BS with
  | nil => rfl
  | cons b bs ih =>
    cases bs with
    | nil =>
      show joinNl (if pyLstrip b = [] then lstripSegs [] else pyLstrip b :: []) = pyLstrip b
      by_cases hb : pyLstrip b = []
      · rw [if_pos hb]
        exact hb.symm
      · rw [if_neg hb]
        rfl
    | cons x xs =>
      rw [joinNl_cons_cons,
        show b ++ '\n' :: joinNl (x :: xs) = b ++ ('\n' :: joinNl (x :: xs)) from rfl,
        pyLstrip_append]
      by_cases hb : pyLstrip b = []
      · rw [if_pos hb, show lstripSegs (b :: x :: xs) = lstripSegs (x :: xs) by
          simp [lstripSegs, hb], ih]
        show pyLstrip (joinNl (x :: xs)) = pyLstrip ('\n' :: joinNl (x :: xs))
        unfold pyLstrip
        rw [List.dropWhile_cons_of_pos (by decide)]
      · rw [if_neg hb, show lstripSegs (b :: x :: xs) = pyLstrip b :: x :: xs by
          simp [lstripSegs, hb], joinNl_cons_cons]

/-- Where `rstripSegs` cuts: either everything is blank, or the list
splits at its last non-blank segment. -/
lemma rstripSegs_decomp (BS : List PyStr) :
    (rstripSegs BS = [] ∧ ∀ b ∈ BS, pyRstrip b = [])
    ∨ ∃ pre b post, BS = pre ++ b :: post ∧ pyRstrip b ≠ []
        ∧ (∀ x ∈ post, pyRstrip x = []) ∧ rstripSegs BS = pre ++ [pyRstrip b] := by
  induction BS with
  | nil => exact Or.inl ⟨rfl, by simp⟩
  | cons b0 bs ih =>
    rcases ih with ⟨h0, hall⟩ | ⟨pre, b, post, hbs, hb, hpost, hres⟩
    · by_cases hb0 : pyRstrip b0 = []
      · refine Or.inl ⟨?_, ?_⟩
        · rw [rstripSegs_cons_of_nil b0 bs h0, if_pos hb0]
        · intro x hx
          rcases List.mem_cons.mp hx with rfl | hx
          · exact hb0
          · exact hall x hx
      · refine Or.inr ⟨[], b0, bs, by simp, hb0, hall, ?_⟩
        rw [rstripSegs_cons_of_nil b0 bs h0, if_neg hb0]
        simp
    · have hne : rstripSegs bs ≠ [] := by
        rw [hres]
        simp
      obtain ⟨c, cs, hcc⟩ : ∃ c cs, rstripSegs bs = c :: cs := by
        cases h0 : rstripSegs bs with
        | nil => exact absurd h0 hne
        | cons c cs => exact ⟨c, cs, rfl⟩
      refine Or.inr ⟨b0 :: pre, b, post, by simp [hbs], hb, hpost, ?_⟩
      rw [rstripSegs_cons_of_cons b0 bs c cs hcc, ← hcc, hres]
      simp

/-- Where `lstripSegs` cuts: either everything is blank, or the list
splits at its first non-blank segment. -/
lemma lstripSegs_decomp (BS : List PyStr) :
    (lstripSegs BS = [] ∧ ∀ b ∈ BS, pyLstrip b = [])
    ∨ ∃ pre b post, BS = pre ++ b :: post ∧ (∀ x ∈ pre, pyLstrip x = [])
        ∧ pyLstrip b ≠ [] ∧ lstripSegs BS = pyLstrip b :: post := by
  induction BS with
  | nil => exact Or.inl ⟨rfl, by simp⟩
  | cons b0 bs ih =>
    by_cases hb0 : pyLstrip b0 = []
    · rcases ih with ⟨h0, hall⟩ | ⟨pre, b, post, hbs, hpre, hb, hres⟩
      · refine Or.inl ⟨?_, ?_⟩
        · show (if pyLstrip b0 = [] then lstripSegs bs else pyLstrip b0 :: bs) = []
          rw [if_pos hb0]
          exact h0
        · intro x hx
          rcases List.mem_cons.mp hx with rfl | hx
          · exact hb0
          · exact hall x hx
      · refine Or.inr ⟨b0 :: pre, b, post, by simp [hbs], ?_, hb, ?_⟩
        · intro x hx
          rcases List.mem_cons.mp hx with rfl | hx
          · exact hb0
          · exact hpre x hx
        · show (if pyLstrip b0 = [] then lstripSegs bs else pyLstrip b0 :: bs) = _
          rw [if_pos hb0]
          exact hres
    · refine Or.inr ⟨[], b0, bs, by simp, by simp, hb0, ?_⟩
      show (if pyLstrip b0 = [] then lstripSegs bs else pyLstrip b0 :: bs) = _
      rw [if_neg hb0]

/-- Uniqueness of the decomposition of a list at its last element not
satisfying a property. -/
lemma last_marked_decomp {α : Type} (P : α → Prop) :
    ∀ (pre : List α) (b : α) (post : List α) (pre' : List α) (b' : α) (post' : List α),
      pre ++ b :: post = pre' ++ b' :: post' →
      (∀ x ∈ post, P x) → ¬ P b → (∀ x ∈ post', P x) → ¬ P b' →
      pre = pre' ∧ b = b' ∧ post = post' := by
  intro pre
  induction pre with
  | nil =>
    intro b post pre' b' post' heq hpost hb hpost' hb'
    cases pre' with
    | nil =>
      injection heq with h1 h2
      exact ⟨rfl, h1, h2⟩
    | cons y pre2 =>
      injection heq with h1 h2
      exact absurd (hpost b' (by simp [h2, List.mem_append])) hb'
  | cons x pre2 ih =>
    intro b post pre' b' post' heq hpost hb hpost' hb'
    cases pre' with
    | nil =>
      injection heq with h1 h2
      exact absurd (hpost' b (by simp [← h2, List.mem_append])) hb
    | cons y pre2' =>
      injection heq with h1 h2
      obtain ⟨ha, hbb, hc⟩ := ih b post pre2' b' post' h2 hpost hb hpost' hb'
      exact ⟨by rw [h1, ha], hbb, hc⟩

lemma mem_pyRstrip_sub {x : Char} {t : PyStr} (h : x ∈ pyRstrip t) : x ∈ t := by
  unfold pyRstrip at h
  rw [List.mem_reverse] at h
  exact List.mem_reverse.mp (List.Sublist.mem h (List.dropWhile_sublist pySpace))

lemma mem_pyLstrip_sub {x : Char} {t : PyStr} (h : x ∈ pyLstrip t) : x ∈ t :=
  List.Sublist.mem h (List.dropWhile_sublist pySpace)

lemma append_singleton_inj {α : Type} {a b : List α} {x y : α}
    (h : a ++ [x] = b ++ [y]) : a = b ∧ x = y := by
  have h2 := congrArg List.reverse h
  simp only [List.reverse_append, List.reverse_singleton, List.singleton_append] at h2
  injection h2 with h3 h4
  refine ⟨?_, h3⟩
  have h5 := congrArg List.reverse h4
  simpa using h5

/-- The key invariant for round-two splitting: every segment of the text
before the last one is not `;`-terminated. -/
def MidsOK (t : PyStr) : Prop := ∀ x ∈ (nlSegs t).dropLast, endsWithSemi x = false

lemma endsWithSemi_pyLstrip_false (x : PyStr) (h : endsWithSemi x = false) :
    endsWithSemi (pyLstrip x) = false := by
  cases h2 : endsWithSemi (pyLstrip x) with
  | false => rfl
  | true => rw [endsWithSemi_of_pyLstrip x h2] at h; cases h

/-- Stripping a `;`-terminated statement leaves all segments before the
last one free of terminating semicolons, provided the statement's
segments have that structure. -/
lemma strip_segs_midsOK (s : PyStr) (BODIES : List PyStr) (bend : PyStr) (E : List PyStr)
    (hseg : nlSegs s = BODIES ++ bend :: E)
    (hB : ∀ x ∈ BODIES, endsWithSemi x = false)
    (hbend : pyRstrip bend ≠ [])
    (hE : ∀ x ∈ E, pyRstrip x = []) :
    MidsOK (pyStrip s) := by
  have hjoin : joinNl (nlSegs s) = s := joinNl_nlSegs s
  rcases rstripSegs_decomp (nlSegs s) with ⟨hM, hall⟩ | ⟨pre, b, post, hSS, hb, hpost, hres⟩
  · exact absurd (hall bend (by rw [hseg]; exact List.mem_append_right _ (by simp))) hbend
  · obtain ⟨hpre_eq, hb_eq, hpost_eq⟩ :=
      last_marked_decomp (fun x => pyRstrip x = []) pre b post BODIES bend E
        (hSS.symm.trans hseg) hpost hb hE hbend
    subst hpre_eq hb_eq hpost_eq
    have hMval : rstripSegs (nlSegs s) = pre ++ [pyRstrip b] := hres
    have hMjoin : joinNl (rstripSegs (nlSegs s)) = pyRstrip s := by
      rw [(rstripSegs_joinNl (nlSegs s)).1, hjoin]
    have hstrip : pyStrip s = joinNl (lstripSegs (pre ++ [pyRstrip b])) := by
      show pyLstrip (pyRstrip s) = _
      rw [← hMjoin, hMval, lstripSegs_joinNl]
    have hMnl : ∀ x ∈ pre ++ [pyRstrip b], '\n' ∉ x := by
      intro x hx
      rcases List.mem_append.mp hx with hx | hx
      · exact mem_nlSegs_no_nl s x (by rw [hseg]; exact List.mem_append_left _ hx)
      · rw [List.mem_singleton] at hx
        subst hx
        intro hmem
        exact mem_nlSegs_no_nl s b
          (by rw [hseg]; exact List.mem_append_right _ (by simp)) (mem_pyRstrip_sub hmem)
    rcases lstripSegs_decomp (pre ++ [pyRstrip b]) with ⟨hN, _⟩ |
      ⟨pre2, b2, post2, hM2, _, hb2, hres2⟩
    · rw [hN] at hstrip
      intro x hx
      rw [show pyStrip s = [] from hstrip] at hx
      simp [nlSegs] at hx
    · rw [hres2] at hstrip
      have hsegs2 : nlSegs (pyStrip s) = pyLstrip b2 :: post2 := by
        rw [hstrip]
        refine nlSegs_joinNl _ (by simp) ?_
        intro x hx
        rcases List.mem_cons.mp hx with rfl | hx
        · intro hmem
          exact hMnl b2 (by rw [hM2]; exact List.mem_append_right _ (by simp))
            (mem_pyLstrip_sub hmem)
        · exact hMnl x (by rw [hM2]; exact List.mem_append_right _ (by simp [hx]))
      intro x hx
      rw [hsegs2] at hx
      rcases List.eq_nil_or_concat post2 with h0 | ⟨post2i, plast, hplast⟩
      · rw [h0] at hx
        simp at hx
      · rw [hplast] at hM2
        have hM2' : pre ++ [pyRstrip b] = (pre2 ++ b2 :: post2i) ++ [plast] := by
          rw [hM2]
          simp
        obtain ⟨hinit, _⟩ := append_singleton_inj hM2'
        have hb2mem : b2 ∈ pre := by
          have hmem2 : b2 ∈ pre2 ++ b2 :: post2i := List.mem_append_right _ (by simp)
          rw [← hinit] at hmem2
          exact hmem2
        have hpost2i : ∀ z2 ∈ post2i, z2 ∈ pre := by
          intro z2 hz2
          have hmem2 : z2 ∈ pre2 ++ b2 :: post2i := List.mem_append_right _ (by simp [hz2])
          rw [← hinit] at hmem2
          exact hmem2
        rw [hplast, List.concat_eq_append] at hx
        rw [show (pyLstrip b2 :: (post2i ++ [plast])) = (pyLstrip b2 :: post2i) ++ [plast] by
          simp] at hx
        rw [List.dropLast_concat] at hx
        rcases List.mem_cons.mp hx with rfl | hx2
        · exact endsWithSemi_pyLstrip_false b2 (hB b2 hb2mem)
        · exact hB x (hpost2i x hx2)

/-- Stripping preserves that no segment is `;`-terminated. -/
lemma strip_segs_all_nonsemi (s : PyStr)
    (h : ∀ x ∈ nlSegs s, endsWithSemi x = false) :
    ∀ x ∈ nlSegs (pyStrip s), endsWithSemi x = false := by
  have hjoin : joinNl (nlSegs s) = s := joinNl_nlSegs s
  rcases rstripSegs_decomp (nlSegs s) with ⟨hM, _⟩ | ⟨pre, b, post, hSS, hb, hpost, hres⟩
  · have h0 : pyRstrip s = [] := by
      rw [← hjoin, ← (rstripSegs_joinNl (nlSegs s)).1, hM]
      rfl
    intro x hx
    rw [show pyStrip s = [] by show pyLstrip (pyRstrip s) = []; rw [h0]; rfl] at hx
    simp only [nlSegs, List.mem_singleton] at hx
    subst hx
    decide
  · have hMjoin : joinNl (rstripSegs (nlSegs s)) = pyRstrip s := by
      rw [(rstripSegs_joinNl (nlSegs s)).1, hjoin]
    have hMnonsemi : ∀ x ∈ pre ++ [pyRstrip b], endsWithSemi x = false := by
      intro x hx
      rcases List.mem_append.mp hx with hx | hx
      · exact h x (by rw [hSS]; exact List.mem_append_left _ hx)
      · rw [List.mem_singleton] at hx
        subst hx
        rw [endsWithSemi_pyRstrip]
        exact h b (by rw [hSS]; exact List.mem_append_right _ (by simp))
    have hMnl : ∀ x ∈ pre ++ [pyRstrip b], '\n' ∉ x := by
      intro x hx
      rcases List.mem_append.mp hx with hx | hx
      · exact mem_nlSegs_no_nl s x (by rw [hSS]; exact List.mem_append_left _ hx)
      · rw [List.mem_singleton] at hx
        subst hx
        intro hmem
        exact mem_nlSegs_no_nl s b
          (by rw [hSS]; exact List.mem_append_right _ (by simp)) (mem_pyRstrip_sub hmem)
    have hstrip0 : pyStrip s = joinNl (lstripSegs (pre ++ [pyRstrip b])) := by
      show pyLstrip (pyRstrip s) = _
      rw [← hMjoin, hres, lstripSegs_joinNl]
    rcases lstripSegs_decomp (pre ++ [pyRstrip b]) with ⟨hN, _⟩ |
      ⟨pre2, b2, post2, hM2, _, hb2, hres2⟩
    · rw [hN] at hstrip0
      intro x hx
      rw [show pyStrip s = [] from hstrip0] at hx
      simp only [nlSegs, List.mem_singleton] at hx
      subst hx
      decide
    · rw [hres2] at hstrip0
      have hsegs2 : nlSegs (pyStrip s) = pyLstrip b2 :: post2 := by
        rw [hstrip0]
        refine nlSegs_joinNl _ (by simp) ?_
        intro x hx
        rcases List.mem_cons.mp hx with rfl | hx
        · intro hmem
          exact hMnl b2 (by rw [hM2]; exact List.mem_append_right _ (by simp))
            (mem_pyLstrip_sub hmem)
        · exact hMnl x (by rw [hM2]; exact List.mem_append_right _ (by simp [hx]))
      intro x hx
      rw [hsegs2] at hx
      rcases List.mem_cons.mp hx with rfl | hx2
      · exact endsWithSemi_pyLstrip_false b2
          (hMnonsemi b2 (by rw [hM2]; exact List.mem_append_right _ (by simp)))
      · exact hMnonsemi x (by rw [hM2]; exact List.mem_append_right _ (by simp [hx2]))

/-- A line as yielded by file iteration: either it carries no newline
(final unterminated line), or it is a newline-free body closed by a
newline. -/
def LineForm (m : PyStr) : Prop := ('\n' ∉ m) ∨ ∃ b, '\n' ∉ b ∧ m = b ++ ['\n']

lemma line_form (s : PyStr) : ∀ m ∈ pySplitLines s, LineForm m := by
  obtain ⟨BS, tail, h1, h2, h3, _⟩ := pySplitLines_shape s
  intro m hm
  rw [h3] at hm
  rcases List.mem_append.mp hm with hm | hm
  · obtain ⟨b, hb, rfl⟩ := List.mem_map.mp hm
    exact Or.inr ⟨b, h1 b hb, rfl⟩
  · by_cases ht : tail = []
    · rw [if_pos ht] at hm
      cases hm
    · rw [if_neg ht, List.mem_singleton] at hm
      subst hm
      exact Or.inl h2

/-- Segment structure of a `;`-closed statement (its middle lines do not
terminate, the closing line does). -/
lemma closed_stmt_segs (mids : List PyStr) (lend : PyStr)
    (hform : ∀ m ∈ mids, ∃ b, '\n' ∉ b ∧ m = b ++ ['\n'])
    (hm : ∀ m ∈ mids, endsWithSemi m = false)
    (hl : endsWithSemi lend = true)
    (hlform : LineForm lend) :
    ∃ (BODIES : List PyStr) (bend : PyStr) (E : List PyStr),
      nlSegs ((mids ++ [lend]).flatten) = BODIES ++ bend :: E ∧
      (∀ x ∈ BODIES, endsWithSemi x = false) ∧ pyRstrip bend ≠ [] ∧
      ∀ x ∈ E, pyRstrip x = [] := by
  induction mids with
  | nil =>
    rw [show (([] : List PyStr) ++ [lend]).flatten = lend by simp]
    rcases hlform with hnl | ⟨b, hnlb, rfl⟩
    · refine ⟨[], lend, [], by simp [nlSegs_no_nl lend hnl], by simp, ?_, by simp⟩
      intro h0
      rw [endsWithSemi_iff, h0] at hl
      cases hl
    · refine ⟨[], b, [[]], ?_, by simp, ?_, by simp [pyRstrip]⟩
      · rw [show b ++ ['\n'] = b ++ '\n' :: [] from rfl, nlSegs_body_cons b [] hnlb]
        rfl
      · rw [endsWithSemi_append_nl, endsWithSemi_iff] at hl
        intro h0
        rw [h0] at hl
        cases hl
  | cons m mids2 ih =>
    obtain ⟨b, hnlb, rfl⟩ := hform m (by simp)
    obtain ⟨BODIES, bend, E, hsegs, hB, hbend, hE⟩ :=
      ih (fun x hx => hform x (by simp [hx])) (fun x hx => hm x (by simp [hx]))
    refine ⟨b :: BODIES, bend, E, ?_, ?_, hbend, hE⟩
    · rw [show ((b ++ ['\n']) :: mids2 ++ [lend]).flatten
          = b ++ '\n' :: (mids2 ++ [lend]).flatten by simp,
        nlSegs_body_cons b _ hnlb, hsegs]
      rfl
    · intro x hx
      rcases List.mem_cons.mp hx with rfl | hx
      · have := hm (x ++ ['\n']) (by simp)
        rwa [endsWithSemi_append_nl] at this
      · exact hB x hx

/-- Segment structure of an unterminated trailing statement: no segment
terminates. -/
lemma open_stmt_segs (mids : List PyStr) (glast : PyStr)
    (hform : ∀ m ∈ mids, ∃ b, '\n' ∉ b ∧ m = b ++ ['\n'])
    (hm : ∀ m ∈ mids, endsWithSemi m = false)
    (hlast : endsWithSemi glast = false)
    (hlform : LineForm glast) :
    ∀ x ∈ nlSegs ((mids ++ [glast]).flatten), endsWithSemi x = false := by
  induction mids with
  | nil =>
    rw [show (([] : List PyStr) ++ [glast]).flatten = glast by simp]
    rcases hlform with hnl | ⟨b, hnlb, rfl⟩
    · intro x hx
      rw [nlSegs_no_nl glast hnl, List.mem_singleton] at hx
      subst hx
      exact hlast
    · intro x hx
      rw [show b ++ ['\n'] = b ++ '\n' :: [] from rfl, nlSegs_body_cons b [] hnlb] at hx
      rcases List.mem_cons.mp hx with rfl | hx
      · rwa [endsWithSemi_append_nl] at hlast
      · simp only [nlSegs, List.mem_singleton] at hx
        subst hx
        decide
  | cons m mids2 ih =>
    obtain ⟨b, hnlb, rfl⟩ := hform m (by simp)
    intro x hx
    rw [show ((b ++ ['\n']) :: mids2 ++ [glast]).flatten
        = b ++ '\n' :: (mids2 ++ [glast]).flatten by simp,
      nlSegs_body_cons b _ hnlb] at hx
    rcases List.mem_cons.mp hx with rfl | hx
    · have := hm (x ++ ['\n']) (by simp)
      rwa [endsWithSemi_append_nl] at this
    · exact ih (fun y hy => hform y (by simp [hy])) (fun y hy => hm y (by simp [hy])) x hx

/-- Each group of a declarative split occupies a contiguous region of the
input lines, and is either `;`-closed or the final unterminated group. -/
lemma isStmtSplit_groups (lines : List PyStr) (gs : List (List PyStr))
    (h : IsStmtSplit lines gs) :
    ∀ g ∈ gs, ∃ pre suf, lines = pre ++ (g ++ suf) ∧
      ((∃ mids lend, g = mids ++ [lend] ∧ (∀ m ∈ mids, endsWithSemi m = false)
          ∧ endsWithSemi lend = true)
       ∨ (suf = [] ∧ g ≠ [] ∧ ∀ m ∈ g, endsWithSemi m = false)) := by
  induction h with
  | nil => intro g hg; cases hg
  | finalGroup g2 hne hns =>
    intro g hg
    rw [List.mem_singleton] at hg
    subst hg
    exact ⟨[], [], by simp, Or.inr ⟨rfl, hne, hns⟩⟩
  | step mids lend rest gs2 hm hs _ ih =>
    intro g hg
    rcases List.mem_cons.mp hg with rfl | hg
    · exact ⟨[], rest, by simp, Or.inl ⟨mids, lend, rfl, hm, hs⟩⟩
    · obtain ⟨pre, suf, hrest, hP⟩ := ih g hg
      exact ⟨(mids ++ [lend]) ++ pre, suf, by rw [hrest]; simp, hP⟩

/-- Any group of a declarative split that is followed by a further group
is `;`-closed. -/
lemma isStmtSplit_closed_of_post (lines : List PyStr) (gs : List (List PyStr))
    (h : IsStmtSplit lines gs) :
    ∀ preg g postg, gs = preg ++ g :: postg → postg ≠ [] →
      ∃ mids lend, g = mids ++ [lend] ∧ (∀ m ∈ mids, endsWithSemi m = false)
        ∧ endsWithSemi lend = true := by
  induction h with
  | nil =>
    intro preg g postg hdec _
    cases preg <;> cases hdec
  | finalGroup g2 hne hns =>
    intro preg g postg hdec hpost
    cases preg with
    | nil =>
      injection hdec with _ h2
      exact absurd h2.symm hpost
    | cons x preg2 =>
      injection hdec with _ h2
      cases preg2 <;> cases h2
  | step mids lend rest gs2 hm hs _ ih =>
    intro preg g postg hdec hpost
    cases preg with
    | nil =>
      injection hdec with h1 _
      exact ⟨mids, lend, h1.symm, hm, hs⟩
    | cons x preg2 =>
      injection hdec with _ h2
      exact ih preg2 g postg h2 hpost

/-- Decomposition of a mapped list around one element. -/
lemma map_decomp {α β : Type} (f : α → β) :
    ∀ (l : List α) (pre : List β) (y : β) (post : List β), l.map f = pre ++ y :: post →
      ∃ pre0 y0 post0, l = pre0 ++ y0 :: post0 ∧ pre = pre0.map f ∧ y = f y0
        ∧ post = post0.map f := by
  intro l
  induction l with
  | nil =>
    intro pre y post hdec
    cases pre <;> cases hdec
  | cons x l2 ih =>
    intro pre y post hdec
    cases pre with
    | nil =>
      injection hdec with h1 h2
      exact ⟨[], x, l2, rfl, rfl, h1.symm, h2.symm⟩
    | cons z pre2 =>
      injection hdec with h1 h2
      obtain ⟨pre0, y0, post0, hl, hp, hy, hpost⟩ := ih pre2 y post h2
      exact ⟨x :: pre0, y0, post0, by simp [hl], by rw [List.map_cons, h1, hp], hy, hpost⟩

lemma endsWithSemi_append_right (a l : PyStr) (h : endsWithSemi l = true) :
    endsWithSemi (a ++ l) = true := by
  rw [endsWithSemi_iff] at h ⊢
  have hne : pyRstrip l ≠ [] := by intro h0; rw [h0] at h; cases h
  rw [pyRstrip_append, if_neg hne, List.getLast?_append, h]
  rfl

/-- The two facts about the statement list of a source that round-two
splitting needs: every stripped statement has non-terminating middle
segments, and every statement followed by another one is `;`-closed. -/
lemma filterStatements_facts (src : PyStr) :
    (∀ stmt ∈ filterStatements src, MidsOK (pyStrip stmt)) ∧
    (∀ pre stmt post, filterStatements src = pre ++ stmt :: post → post ≠ [] →
        endsWithSemi stmt = true) := by
  obtain ⟨gs, hgs⟩ := isStmtSplit_exists (pySplitLines src)
  have hsound : filterStatements src = gs.map List.flatten := isStmtSplit_sound _ gs hgs
  constructor
  · intro stmt hstmt
    rw [hsound] at hstmt
    obtain ⟨g, hg, rfl⟩ := List.mem_map.mp hstmt
    obtain ⟨pre, suf, hlines, hP⟩ := isStmtSplit_groups _ _ hgs g hg
    rcases hP with ⟨mids, lend, rfl, hm, hs⟩ | ⟨hsuf, hne, hall⟩
    · have hform : ∀ m ∈ mids, ∃ b, '\n' ∉ b ∧ m = b ++ ['\n'] := by
        intro m hmem
        obtain ⟨a, c, rfl⟩ := List.append_of_mem hmem
        exact line_before_end_form src (pre ++ a) (c ++ [lend] ++ suf) m
          (by rw [hlines]; simp) (by simp)
      have hlform : LineForm lend := line_form src lend (by rw [hlines]; simp)
      obtain ⟨BODIES, bend, E, hsegs, hB, hbend, hE⟩ :=
        closed_stmt_segs mids lend hform hm hs hlform
      exact strip_segs_midsOK _ BODIES bend E hsegs hB hbend hE
    · subst hsuf
      obtain ⟨mids, glast, rfl⟩ : ∃ mids glast, g = mids ++ [glast] := by
        rcases List.eq_nil_or_concat g with rfl | ⟨mids, glast, hg2⟩
        · exact absurd rfl hne
        · exact ⟨mids, glast, by rw [hg2, List.concat_eq_append]⟩
      have hform : ∀ m ∈ mids, ∃ b, '\n' ∉ b ∧ m = b ++ ['\n'] := by
        intro m hmem
        obtain ⟨a, c, rfl⟩ := List.append_of_mem hmem
        exact line_before_end_form src (pre ++ a) (c ++ [glast]) m
          (by rw [hlines]; simp) (by simp)
      have hlform : LineForm glast := line_form src glast (by rw [hlines]; simp)
      have hnonsemi := open_stmt_segs mids glast hform (fun m hm2 => hall m (by simp [hm2]))
        (hall glast (by simp)) hlform
      have h2 := strip_segs_all_nonsemi _ hnonsemi
      intro x hx
      exact h2 x (List.Sublist.mem hx (List.dropLast_sublist _))
  · intro pre stmt post hdec hpost
    rw [hsound] at hdec
    obtain ⟨preg, g, postg, hgs_dec, _, rfl, hpost_eq⟩ :=
      map_decomp List.flatten gs pre stmt post hdec
    have hpostg : postg ≠ [] := by
      intro h0
      rw [h0] at hpost_eq
      exact hpost hpost_eq
    obtain ⟨mids, lend, rfl, _, hs⟩ :=
      isStmtSplit_closed_of_post _ _ hgs preg g postg hgs_dec hpostg
    rw [show (mids ++ [lend]).flatten = mids.flatten ++ lend by simp]
    exact endsWithSemi_append_right _ _ hs

lemma joinNl_append_singleton (SG0 : List PyStr) (bend : PyStr) (h : SG0 ≠ []) :
    joinNl (SG0 ++ [bend]) = joinNl SG0 ++ '\n' :: bend := by
  induction SG0 with
  | nil => exact absurd rfl h
  | cons x xs ih =>
    cases xs with
    | nil => rfl
    | cons y ys =>
      rw [show (x :: y :: ys) ++ [bend] = x :: ((y :: ys) ++ [bend]) from rfl,
        joinNl_cons_ne_nil x _ (by simp), ih (by simp), joinNl_cons_cons]
      simp

lemma joinNl_getLast_concat (SG0 : List PyStr) (bend : PyStr) (h : bend ≠ []) :
    (joinNl (SG0 ++ [bend])).getLast? = bend.getLast? := by
  cases SG0 with
  | nil => rfl
  | cons x xs =>
    rw [joinNl_append_singleton _ _ (by simp), List.getLast?_append]
    obtain ⟨b0, hb0⟩ : ∃ b0, bend.getLast? = some b0 := by
      cases h0 : bend.getLast? with
      | none => exact absurd (by simpa using h0) h
      | some b0 => exact ⟨b0, rfl⟩
    have h1 : ('\n' :: bend).getLast? = some b0 := by
      rw [show ('\n' :: bend) = ['\n'] ++ bend from rfl, List.getLast?_append, hb0]
      rfl
    rw [h1, hb0]
    rfl

lemma joinNl_getLast_concat_nil (SG0 : List PyStr) (h : SG0 ≠ []) :
    (joinNl (SG0 ++ [[]])).getLast? = some '\n' := by
  rw [joinNl_append_singleton _ _ h]
  have : joinNl SG0 ++ '\n' :: [] = joinNl SG0 ++ ['\n'] := rfl
  rw [this, List.getLast?_concat]

lemma endsWithSemi_joinNl_concat (SG0 : List PyStr) (bend : PyStr)
    (h : endsWithSemi bend = true) :
    endsWithSemi (joinNl (SG0 ++ [bend])) = true := by
  cases SG0 with
  | nil => exact h
  | cons x xs =>
    rw [joinNl_append_singleton _ _ (by simp),
      show joinNl (x :: xs) ++ '\n' :: bend = (joinNl (x :: xs) ++ ['\n']) ++ bend by simp]
    exact endsWithSemi_append_right _ _ h

lemma endsWithSemi_pyStrip_imp (t : PyStr) (h : endsWithSemi (pyStrip t) = true) :
    endsWithSemi t = true := by
  have h1 := endsWithSemi_of_pyLstrip (pyRstrip t) h
  rwa [endsWithSemi_pyRstrip] at h1

/-- The last segment of a stripped `;`-terminated statement ends in `;`. -/
lemma stripped_last_seg (t : PyStr) (SG0 : List PyStr) (bend : PyStr)
    (hsegs : nlSegs (pyStrip t) = SG0 ++ [bend])
    (hsemi : endsWithSemi t = true) :
    bend.getLast? = some ';' := by
  have hT : (pyStrip t).getLast? = some ';' := pyStrip_getLast_semi t hsemi
  have hjoin : joinNl (SG0 ++ [bend]) = pyStrip t := by
    rw [← hsegs, joinNl_nlSegs]
  by_cases hbend : bend = []
  · subst hbend
    cases hSG0 : SG0 with
    | nil =>
      rw [hSG0] at hjoin
      rw [← hjoin] at hT
      cases hT
    | cons x xs =>
      rw [hSG0] at hjoin
      have := joinNl_getLast_concat_nil (x :: xs) (by simp)
      rw [hjoin, hT] at this
      cases this
  · have := joinNl_getLast_concat SG0 bend hbend
    rw [hjoin, hT] at this
    exact this.symm

/-- The last segment of a stripped statement that does not end in `;` is
itself not `;`-terminated. -/
lemma stripped_last_seg_nonsemi (t : PyStr) (SG0 : List PyStr) (bend : PyStr)
    (hsegs : nlSegs (pyStrip t) = SG0 ++ [bend])
    (hsemi : endsWithSemi t = false) :
    endsWithSemi bend = false := by
  cases h : endsWithSemi bend with
  | false => rfl
  | true =>
    have hjoin : joinNl (SG0 ++ [bend]) = pyStrip t := by
      rw [← hsegs, joinNl_nlSegs]
    have h2 := endsWithSemi_joinNl_concat SG0 bend h
    rw [hjoin] at h2
    rw [endsWithSemi_pyStrip_imp t h2] at hsemi
    cases hsemi

/-- The statement list produced when StatementFilter re-splits its own
output: every `;`-closed block becomes one statement (carrying the blank
separator line left over from the previous block); a final unterminated
block, or the final blank separator, is flushed at end of input. -/
def r2stmts : PyStr → List PyStr → List PyStr
  | pfx, [] => if pfx = [] then [] else [pfx]
  | pfx, t :: ts =>
    if endsWithSemi t then (pfx ++ (pyStrip t ++ ['\n'])) :: r2stmts ['\n'] ts
    else [pfx ++ (pyStrip t ++ '\n' :: ['\n'])]

lemma block_lines (pfx T : PyStr) (hpfx : pfx = [] ∨ pfx = ['\n']) :
    pySplitLines (pfx ++ (T ++ ['\n']))
      = pySplitLines pfx ++ (nlSegs T).map (fun b => b ++ ['\n']) := by
  have hT : pySplitLines (T ++ ['\n']) = (nlSegs T).map (fun b => b ++ ['\n']) := by
    have h0 := pySplitLines_joinNl (nlSegs T) (nlSegs_ne_nil T) (mem_nlSegs_no_nl T)
    rwa [joinNl_nlSegs T] at h0
  rcases hpfx with rfl | rfl
  · simpa using hT
  · show pySplitLines ('\n' :: (T ++ ['\n'])) = _
    rw [show pySplitLines ('\n' :: (T ++ ['\n'])) = ['\n'] :: pySplitLines (T ++ ['\n']) by
      simp [pySplitLines], hT]
    rfl

/-- Re-splitting StatementFilter output, block by block. -/
lemma roundTwoSplit (K : List PyStr) : ∀ (pfx : PyStr),
    (pfx = [] ∨ pfx = ['\n']) →
    (∀ t ∈ K, MidsOK (pyStrip t)) →
    (∀ pre t post, K = pre ++ t :: post → post ≠ [] → endsWithSemi t = true) →
    splitLoop (pySplitLines (pfx ++ (K.map (fun s => pyStrip s ++ '\n' :: ['\n'])).flatten)) []
      = r2stmts pfx K := by
  induction K with
  | nil =>
    intro pfx hpfx _ _
    rcases hpfx with rfl | rfl
    · decide
    · decide
  | cons t ts ih =>
    intro pfx hpfx hmids hsemi
    have hpfx_nonsemi : ∀ l ∈ pySplitLines pfx, endsWithSemi l = false := by
      rcases hpfx with rfl | rfl
      · intro l hl; cases hl
      · intro l hl
        rw [show pySplitLines ['\n'] = [['\n']] by simp [pySplitLines]] at hl
        rw [List.mem_singleton] at hl
        subst hl
        decide
    have hinput : pfx ++ ((t :: ts).map (fun s => pyStrip s ++ '\n' :: ['\n'])).flatten
        = ((pfx ++ pyStrip t) ++ ['\n'])
          ++ ('\n' :: (ts.map (fun s => pyStrip s ++ '\n' :: ['\n'])).flatten) := by
      simp
    rw [hinput, pySplitLines_append (pfx ++ pyStrip t) _]
    have hA : pySplitLines ((pfx ++ pyStrip t) ++ ['\n'])
        = pySplitLines pfx ++ (nlSegs (pyStrip t)).map (fun b => b ++ ['\n']) := by
      rw [List.append_assoc]
      exact block_lines pfx (pyStrip t) hpfx
    rw [hA]
    obtain ⟨SG0, bend, hsegs⟩ : ∃ SG0 bend, nlSegs (pyStrip t) = SG0 ++ [bend] := by
      rcases List.eq_nil_or_concat (nlSegs (pyStrip t)) with h0 | ⟨SG0, bend, h0⟩
      · exact absurd h0 (nlSegs_ne_nil _)
      · exact ⟨SG0, bend, by rw [h0, List.concat_eq_append]⟩
    have hSG0_nonsemi : ∀ b ∈ SG0, endsWithSemi (b ++ ['\n']) = false := by
      intro b hb
      rw [endsWithSemi_append_nl]
      exact hmids t (by simp) b (by rw [hsegs, List.dropLast_concat]; exact hb)
    have hflatten_block : ((nlSegs (pyStrip t)).map (fun b => b ++ ['\n'])).flatten
        = pyStrip t ++ ['\n'] := by
      rw [flatten_seg_lines _ (nlSegs_ne_nil _), joinNl_nlSegs]
    cases hsemit : endsWithSemi t with
    | true =>
      have hbend_last : bend.getLast? = some ';' := stripped_last_seg t SG0 bend hsegs hsemit
      have hlend_semi : endsWithSemi (bend ++ ['\n']) = true := by
        rw [endsWithSemi_append_nl]
        exact endsWithSemi_of_getLast bend hbend_last
      have hB := ih ['\n'] (Or.inr rfl) (fun x hx => hmids x (by simp [hx]))
        (fun pre t2 post h hp => hsemi (t :: pre) t2 post (by rw [h]; rfl) hp)
      simp only [List.singleton_append] at hB
      rw [hsegs, List.map_append]
      have hre : pySplitLines pfx ++ (SG0.map (fun b => b ++ ['\n']) ++ [bend].map (fun b => b ++ ['\n']))
            ++ pySplitLines ('\n' :: (ts.map (fun s => pyStrip s ++ '\n' :: ['\n'])).flatten)
          = (pySplitLines pfx ++ SG0.map (fun b => b ++ ['\n']))
            ++ (bend ++ ['\n'])
              :: pySplitLines ('\n' :: (ts.map (fun s => pyStrip s ++ '\n' :: ['\n'])).flatten) := by
        simp
      have hmids2 : ∀ l ∈ pySplitLines pfx ++ SG0.map (fun b => b ++ ['\n']),
          endsWithSemi l = false := by
        intro l hl
        rcases List.mem_append.mp hl with hl | hl
        · exact hpfx_nonsemi l hl
        · obtain ⟨b, hb, rfl⟩ := List.mem_map.mp hl
          exact hSG0_nonsemi b hb
      rw [hre, splitLoop_closed _ _ _ _ hmids2 hlend_semi, hB]
      show (([] ++ (pySplitLines pfx ++ SG0.map (fun b => b ++ ['\n']))) ++ [bend ++ ['\n']]).flatten
          :: r2stmts ['\n'] ts = r2stmts pfx (t :: ts)
      rw [show r2stmts pfx (t :: ts) = (pfx ++ (pyStrip t ++ ['\n'])) :: r2stmts ['\n'] ts by
        simp [r2stmts, hsemit]]
      have hhead : (([] ++ (pySplitLines pfx ++ SG0.map (fun b => b ++ ['\n']))) ++ [bend ++ ['\n']]).flatten
          = pfx ++ (pyStrip t ++ ['\n']) := by
        have hpfxflat : (pySplitLines pfx).flatten = pfx := pySplitLines_flatten pfx
        calc (([] ++ (pySplitLines pfx ++ SG0.map (fun b => b ++ ['\n']))) ++ [bend ++ ['\n']]).flatten
            = (pySplitLines pfx).flatten
              ++ (SG0.map (fun b => b ++ ['\n']) ++ [bend].map (fun b => b ++ ['\n'])).flatten := by
              simp
          _ = pfx ++ ((SG0 ++ [bend]).map (fun b => b ++ ['\n'])).flatten := by
              rw [hpfxflat, List.map_append]
          _ = pfx ++ (pyStrip t ++ ['\n']) := by rw [← hsegs, hflatten_block]
      rw [hhead]
    | false =>
      have hts : ts = [] := by
        cases ts with
        | nil => rfl
        | cons t2 ts2 =>
          have h0 := hsemi [] t (t2 :: ts2) rfl (by simp)
          rw [h0] at hsemit
          cases hsemit
      subst hts
      have hlast_nonsemi : endsWithSemi (bend ++ ['\n']) = false := by
        rw [endsWithSemi_append_nl]
        exact stripped_last_seg_nonsemi t SG0 bend hsegs hsemit
      have hall : ∀ l ∈ pySplitLines pfx ++ (nlSegs (pyStrip t)).map (fun b => b ++ ['\n'])
          ++ pySplitLines ('\n' :: (([] : List PyStr).map (fun s => pyStrip s ++ '\n' :: ['\n'])).flatten),
          endsWithSemi l = false := by
        intro l hl
        simp only [List.map_nil, List.flatten_nil] at hl
        rw [show pySplitLines ('\n' :: []) = [['\n']] by simp [pySplitLines]] at hl
        rcases List.mem_append.mp hl with hl | hl
        · rcases List.mem_append.mp hl with hl | hl
          · exact hpfx_nonsemi l hl
          · obtain ⟨b, hb, rfl⟩ := List.mem_map.mp hl
            rw [hsegs] at hb
            rcases List.mem_append.mp hb with hb | hb
            · exact hSG0_nonsemi b hb
            · rw [List.mem_singleton] at hb
              subst hb
              exact hlast_nonsemi
        · rw [List.mem_singleton] at hl
          subst hl
          decide
      rw [List.append_assoc] at hall ⊢
      rw [splitLoop_open _ [] hall]
      have hne2 : pySplitLines pfx ++ ((nlSegs (pyStrip t)).map (fun b => b ++ ['\n'])
          ++ pySplitLines ('\n' :: (([] : List PyStr).map (fun s => pyStrip s ++ '\n' :: ['\n'])).flatten)) ≠ [] := by
        simp only [List.map_nil, List.flatten_nil]
        rw [show pySplitLines ('\n' :: []) = [['\n']] by simp [pySplitLines]]
        simp
      rw [if_neg (by simpa using hne2)]
      show [(pySplitLines pfx ++ ((nlSegs (pyStrip t)).map (fun b => b ++ ['\n'])
          ++ pySplitLines ('\n' :: (([] : List PyStr).map (fun s => pyStrip s ++ '\n' :: ['\n'])).flatten))).flatten]
        = r2stmts pfx [t]
      rw [show r2stmts pfx [t] = [pfx ++ (pyStrip t ++ '\n' :: ['\n'])] by simp [r2stmts, hsemit]]
      have hpfxflat : (pySplitLines pfx).flatten = pfx := pySplitLines_flatten pfx
      simp only [List.map_nil, List.flatten_nil]
      rw [show pySplitLines ('\n' :: []) = [['\n']] by simp [pySplitLines]]
      rw [List.flatten_append, List.flatten_append, hpfxflat, hflatten_block]
      simp

/-- Positional closedness survives filtering: if every element of a list
followed by another element is `;`-closed, the same holds for the
filtered list. -/
lemma semi_positional_filter (p : PyStr → Bool) :
    ∀ (l : List PyStr),
      (∀ pre t post, l = pre ++ t :: post → post ≠ [] → endsWithSemi t = true) →
      ∀ pre t post, l.filter p = pre ++ t :: post → post ≠ [] → endsWithSemi t = true := by
  intro l
  induction l with
  | nil =>
    intro _ pre t post hdec _
    cases pre <;> cases hdec
  | cons x l2 ih =>
    intro hl pre t post hdec hpost
    have hl2 : ∀ pre t post, l2 = pre ++ t :: post → post ≠ [] → endsWithSemi t = true := by
      intro pre2 t2 post2 h2 hp2
      exact hl (x :: pre2) t2 post2 (by rw [h2]; rfl) hp2
    by_cases hx : p x = true
    · rw [show List.filter p (x :: l2) = x :: List.filter p l2 by
        simp [List.filter_cons, hx]] at hdec
      cases pre with
      | nil =>
        injection hdec with h1 h2
        subst h1
        have hl2ne : l2 ≠ [] := by
          intro h0
          rw [h0] at h2
          exact hpost h2.symm
        obtain ⟨y, l2b, rfl⟩ : ∃ y l2b, l2 = y :: l2b := by
          cases l2 with
          | nil => exact absurd rfl hl2ne
          | cons y l2b => exact ⟨y, l2b, rfl⟩
        exact hl [] x (y :: l2b) rfl (by simp)
      | cons z pre2 =>
        injection hdec with h1 h2
        exact ih hl2 pre2 t post h2 hpost
    · rw [show List.filter p (x :: l2) = List.filter p l2 by
        simp [List.filter_cons, hx]] at hdec
      exact ih hl2 pre t post hdec hpost

/-- Writing out the round-two statement list reproduces the original
output, except possibly for one extra final blank line. -/
lemma writeLoop_r2stmts (K : List PyStr) : ∀ (pfx : PyStr),
    (pfx = [] ∨ pfx = ['\n']) →
    (∀ stmt ∈ r2stmts pfx K, keepStatement stmt = true) →
    (∀ pre t post, K = pre ++ t :: post → post ≠ [] → endsWithSemi t = true) →
    writeLoop (r2stmts pfx K) = (K.map (fun s => pyStrip s ++ '\n' :: ['\n'])).flatten
    ∨ writeLoop (r2stmts pfx K)
        = (K.map (fun s => pyStrip s ++ '\n' :: ['\n'])).flatten ++ '\n' :: ['\n'] := by
  induction K with
  | nil =>
    intro pfx hpfx _ _
    rcases hpfx with rfl | rfl
    · left; rfl
    · right; decide
  | cons t ts ih =>
    intro pfx hpfx hkeep hsemi
    have hpfx_ws : ∀ c ∈ pfx, pySpace c = true := by
      rcases hpfx with rfl | rfl
      · intro c hc; cases hc
      · intro c hc
        rw [List.mem_singleton] at hc
        subst hc
        decide
    have hstrip_block : ∀ (tail : PyStr), (∀ c ∈ tail, pySpace c = true) →
        pyStrip (pfx ++ (pyStrip t ++ tail)) = pyStrip t := by
      intro tail htail
      rw [pyStrip_append_ws_left pfx _ hpfx_ws, pyStrip_append_ws_right _ tail htail,
        pyStrip_idem]
    cases hsemit : endsWithSemi t with
    | true =>
      have hr2 : r2stmts pfx (t :: ts) = (pfx ++ (pyStrip t ++ ['\n'])) :: r2stmts ['\n'] ts := by
        simp [r2stmts, hsemit]
      have hk := hkeep (pfx ++ (pyStrip t ++ ['\n'])) (by rw [hr2]; simp)
      have hw : writeLoop (r2stmts pfx (t :: ts))
          = (pyStrip t ++ '\n' :: ['\n']) ++ writeLoop (r2stmts ['\n'] ts) := by
        rw [hr2]
        show (if keepStatement (pfx ++ (pyStrip t ++ ['\n'])) then
            pyStrip (pfx ++ (pyStrip t ++ ['\n'])) ++ ('\n' :: ['\n']) else [])
          ++ writeLoop (r2stmts ['\n'] ts) = _
        rw [hk, if_pos rfl, hstrip_block ['\n'] (by decide)]
      have hkeep2 : ∀ stmt ∈ r2stmts ['\n'] ts, keepStatement stmt = true := by
        intro stmt hs
        exact hkeep stmt (by rw [hr2]; exact List.mem_cons_of_mem _ hs)
      have hsemi2 : ∀ pre t2 post, ts = pre ++ t2 :: post → post ≠ [] →
          endsWithSemi t2 = true := by
        intro pre t2 post h2 hp2
        exact hsemi (t :: pre) t2 post (by rw [h2]; rfl) hp2
      rcases ih ['\n'] (Or.inr rfl) hkeep2 hsemi2 with h | h
      · left
        rw [hw, h]
        simp
      · right
        rw [hw, h]
        simp
    | false =>
      have hts : ts = [] := by
        cases ts with
        | nil => rfl
        | cons t2 ts2 =>
          have h0 := hsemi [] t (t2 :: ts2) rfl (by simp)
          rw [h0] at hsemit
          cases hsemit
      subst hts
      have hr2 : r2stmts pfx [t] = [pfx ++ (pyStrip t ++ '\n' :: ['\n'])] := by
        simp [r2stmts, hsemit]
      have hk := hkeep (pfx ++ (pyStrip t ++ '\n' :: ['\n'])) (by rw [hr2]; simp)
      left
      rw [hr2]
      show (if keepStatement (pfx ++ (pyStrip t ++ '\n' :: ['\n'])) then
          pyStrip (pfx ++ (pyStrip t ++ '\n' :: ['\n'])) ++ ('\n' :: ['\n']) else [])
        ++ writeLoop [] = _
      rw [hk, if_pos rfl, hstrip_block ('\n' :: ['\n']) (by decide)]
      simp [writeLoop]

/-- C7: StatementFilter is idempotent on its own output modulo the added
blank-line spacing: if the filtered output contains no disallowed-schema
statements (every statement of the output passes `keep_statement`),
re-running the filter reproduces the output byte for byte, except
possibly for one extra trailing blank line. -/
theorem filter_idempotent (src : PyStr)
    (hclean : ∀ stmt ∈ filterStatements (filterRun src), keepStatement stmt = true) :
    filterRun (filterRun src) = filterRun src
    ∨ filterRun (filterRun src) = filterRun src ++ '\n' :: ['\n'] := by
  obtain ⟨hmidsAll, hsemiAll⟩ := filterStatements_facts src
  have hout1 : filterRun src
      = (((filterStatements src).filter keepStatement).map
          (fun s => pyStrip s ++ '\n' :: ['\n'])).flatten := writeLoop_eq (filterStatements src)
  have hmidsK : ∀ t ∈ (filterStatements src).filter keepStatement, MidsOK (pyStrip t) :=
    fun t ht => hmidsAll t (List.mem_of_mem_filter ht)
  have hsemiK : ∀ pre t post, (filterStatements src).filter keepStatement = pre ++ t :: post →
      post ≠ [] → endsWithSemi t = true :=
    semi_positional_filter keepStatement (filterStatements src) hsemiAll
  have hsplit2 : filterStatements (filterRun src)
      = r2stmts [] ((filterStatements src).filter keepStatement) := by
    show splitLoop (pySplitLines (filterRun src)) [] = _
    rw [hout1]
    have h0 := roundTwoSplit ((filterStatements src).filter keepStatement) []
      (Or.inl rfl) hmidsK hsemiK
    simpa using h0
  have hkeep2 : ∀ stmt ∈ r2stmts [] ((filterStatements src).filter keepStatement),
      keepStatement stmt = true := by
    intro stmt hs
    exact hclean stmt (by rw [hsplit2]; exact hs)
  have hrun2 : filterRun (filterRun src)
      = writeLoop (r2stmts [] ((filterStatements src).filter keepStatement)) := by
    show writeLoop (filterStatements (filterRun src)) = _
    rw [hsplit2]
  rcases writeLoop_r2stmts ((filterStatements src).filter keepStatement) []
    (Or.inl rfl) hkeep2 hsemiK with h | h
  · left
    rw [hrun2, h, ← hout1]
  · right
    rw [hrun2, h, ← hout1]

/-- Witness for C7 (Scenario 1 input): re-filtering `SELECT 1;\n\n`
appends exactly one extra blank line. -/
theorem filter_idempotent_witness :
    filterRun (filterRun ("SELECT 1;\n".data)) = filterRun ("SELECT 1;\n".data)
    ∨ filterRun (filterRun ("SELECT 1;\n".data))
        = filterRun ("SELECT 1;\n".data) ++ '\n' :: ['\n'] :=
  filter_idempotent ("SELECT 1;\n".data) (by decide)
